import Mathlib

/-!
# Verification of the react-form-autosave persistence engine

A shallow embedding, in Lean 4, of the core of the `react-form-autosave`
library: the transform pipeline (JSON serialization, run-length
compression, base64 obfuscation), the merge engine, validation and
migration, the save scheduler (debounce / throttle / combined
controller), the history manager, the cross-tab sync manager and the
orchestrator hook's load / save paths.

Modelling conventions:
* JSON-representable values are modelled by the inductive type `Json`.
  Strings are lists of Unicode scalar values (`List Nat`); numbers are
  modelled as integers (`Int`) — IEEE-754 fractional numbers are outside
  the scope of this embedding.
* JavaScript platform functions used by the source (`JSON.stringify`,
  `JSON.parse`, `btoa`/`atob` with the `encodeURIComponent` byte trick,
  `setTimeout`/`clearTimeout`, object spread) are modelled by explicit
  executable Lean functions following their specified behaviour on the
  value domain above.
* Fallible code (`try`/`catch`) is modelled with `Option`/`Except`.
* Timer-driven code is modelled by a discrete-event world: timers carry
  absolute fire times, due timers fire in chronological order before
  each later event, and quiescence fires all remaining timers.
-/

/-- A JSON-shaped value: `null`, booleans, (integer) numbers, strings
(as lists of code points), arrays and plain objects (as ordered
key/value lists, keys being strings). This is the data domain every
pure function of the library operates on. -/
inductive Json where
  | null : Json
  | bool : Bool → Json
  | num : Int → Json
  | str : List Nat → Json
  | arr : List Json → Json
  | obj : List (List Nat × Json) → Json

/-- Convert a Lean string literal to the code-point list used for
modelled JavaScript strings. -/
def jstr (s : String) : List Nat :=
  s.data.map Char.toNat

/-! ## JSON.stringify model

`JSON.stringify` with no replacer and no indent: the exact quoting
algorithm for strings (escaping `"`, `\`, and control characters with
the short escapes `\b \t \n \f \r` or `\u00XX`), decimal numerals for
numbers, and comma-joined, brace/bracket-delimited arrays and objects
with no whitespace. -/

/-- Lowercase hex digit character code for a value below 16. -/
def hexDig (n : Nat) : Nat :=
  if n < 10 then 48 + n else 87 + n

/-- Escape one character of a JSON string the way `JSON.stringify`
quotes it. -/
def escChar (c : Nat) : List Nat :=
  if c = 34 then [92, 34]
  else if c = 92 then [92, 92]
  else if c = 8 then [92, 98]
  else if c = 9 then [92, 116]
  else if c = 10 then [92, 110]
  else if c = 12 then [92, 102]
  else if c = 13 then [92, 114]
  else if c < 32 then [92, 117, 48, 48, hexDig (c / 16), hexDig (c % 16)]
  else [c]

/-- Escape a whole string body. -/
def escString (s : List Nat) : List Nat :=
  (s.map escChar).flatten

/-- A quoted JSON string literal. -/
def strLit (s : List Nat) : List Nat :=
  34 :: escString s ++ [34]

/-- Big-endian decimal digit character codes of a natural number. -/
def natNumeral (n : Nat) : List Nat :=
  if h : n < 10 then [48 + n]
  else natNumeral (n / 10) ++ [48 + n % 10]
decreasing_by exact Nat.div_lt_self (by omega) (by omega)

/-- Decimal numeral of an integer, with a leading `-` when negative. -/
def intNumeral : Int → List Nat
  | .ofNat n => natNumeral n
  | .negSucc m => 45 :: natNumeral (m + 1)

mutual

/-- Model of `JSON.stringify` (default serializer of the transform
pipeline). -/
def jsonStringify : Json → List Nat
  | .null => [110, 117, 108, 108]
  | .bool true => [116, 114, 117, 101]
  | .bool false => [102, 97, 108, 115, 101]
  | .num n => intNumeral n
  | .str s => strLit s
  | .arr xs => 91 :: itemsStr xs ++ [93]
  | .obj ms => 123 :: membersStr ms ++ [125]

/-- Comma-joined serialization of array elements. -/
def itemsStr : List Json → List Nat
  | [] => []
  | [x] => jsonStringify x
  | x :: y :: rest => jsonStringify x ++ 44 :: itemsStr (y :: rest)

/-- Comma-joined serialization of object members. -/
def membersStr : List (List Nat × Json) → List Nat
  | [] => []
  | [(k, v)] => strLit k ++ 58 :: jsonStringify v
  | (k, v) :: m :: rest => strLit k ++ 58 :: jsonStringify v ++ 44 :: membersStr (m :: rest)

end

/-! ## JSON.parse model

A recursive-descent parser over code-point lists, with a fuel parameter
bounding the nesting depth (any fuel above the input length is enough).
It accepts the JSON grammar restricted to integer numerals, skipping
the JSON whitespace characters between tokens. -/

/-- JSON whitespace: space, tab, line feed, carriage return. -/
def isWs (c : Nat) : Bool :=
  c = 32 || c = 9 || c = 10 || c = 13

/-- Drop leading JSON whitespace. -/
def skipWs (s : List Nat) : List Nat :=
  s.dropWhile isWs

/-- Decimal digit character? -/
def isDigitCode (c : Nat) : Bool :=
  48 ≤ c && c ≤ 57

/-- Value of a hex digit character, if it is one. -/
def hexVal (c : Nat) : Option Nat :=
  if 48 ≤ c && c ≤ 57 then some (c - 48)
  else if 97 ≤ c && c ≤ 102 then some (c - 87)
  else if 65 ≤ c && c ≤ 70 then some (c - 55)
  else none

/-- Single-character string escapes accepted after a backslash. -/
def unesc (c : Nat) : Option Nat :=
  if c = 34 then some 34
  else if c = 92 then some 92
  else if c = 47 then some 47
  else if c = 98 then some 8
  else if c = 102 then some 12
  else if c = 110 then some 10
  else if c = 114 then some 13
  else if c = 116 then some 9
  else none

/-- Parse the body of a string literal (the opening quote already
consumed), returning the decoded string and the rest of the input. -/
def parseStringBody : List Nat → Option (List Nat × List Nat)
  | [] => none
  | c :: r =>
    if c = 34 then some ([], r)
    else if c = 92 then
      match r with
      | [] => none
      | e :: r2 =>
        if e = 117 then
          match r2 with
          | h1 :: h2 :: h3 :: h4 :: r3 => do
            let a ← hexVal h1
            let b ← hexVal h2
            let c2 ← hexVal h3
            let d ← hexVal h4
            let (s, rest) ← parseStringBody r3
            some ((a * 4096 + b * 256 + c2 * 16 + d) :: s, rest)
          | _ => none
        else do
          let c2 ← unesc e
          let (s, rest) ← parseStringBody r2
          some (c2 :: s, rest)
    else if c < 32 then none
    else do
      let (s, rest) ← parseStringBody r
      some (c :: s, rest)

/-- Match an expected token tail, returning the remaining input. -/
def stripTok : List Nat → List Nat → Option (List Nat)
  | [], s => some s
  | _ :: _, [] => none
  | c :: cs, d :: ds => if d = c then stripTok cs ds else none

/-- Fold a list of decimal digit character codes into a natural. -/
def digitsToNat (ds : List Nat) : Nat :=
  ds.foldl (fun a d => a * 10 + (d - 48)) 0

/-- Parse an unsigned integer numeral. -/
def parseNatNum (s : List Nat) : Option (Nat × List Nat) :=
  let ds := s.takeWhile isDigitCode
  if ds.isEmpty then none else some (digitsToNat ds, s.dropWhile isDigitCode)

/-- Parse a (possibly negative) integer numeral. -/
def parseNumber (s : List Nat) : Option (Json × List Nat) :=
  match s with
  | c :: r =>
    if c = 45 then (parseNatNum r).map (fun p => (.num (-(p.1 : Int)), p.2))
    else (parseNatNum s).map (fun p => (.num (p.1 : Int), p.2))
  | [] => none

mutual

/-- Parse one JSON value; `fuel` bounds nesting (input length + 1 is
always sufficient). -/
def parseValue : Nat → List Nat → Option (Json × List Nat)
  | 0, _ => none
  | fuel + 1, s0 =>
    match skipWs s0 with
    | [] => none
    | c :: r =>
      if c = 110 then (stripTok [117, 108, 108] r).map (fun rest => (.null, rest))
      else if c = 116 then (stripTok [114, 117, 101] r).map (fun rest => (.bool true, rest))
      else if c = 102 then (stripTok [97, 108, 115, 101] r).map (fun rest => (.bool false, rest))
      else if c = 34 then (parseStringBody r).map (fun p => (.str p.1, p.2))
      else if c = 91 then
        match skipWs r with
        | [] => none
        | d :: r2 =>
          if d = 93 then some (.arr [], r2)
          else (parseItems fuel (d :: r2)).map (fun p => (.arr p.1, p.2))
      else if c = 123 then
        match skipWs r with
        | [] => none
        | d :: r2 =>
          if d = 125 then some (.obj [], r2)
          else (parseMembers fuel (d :: r2)).map (fun p => (.obj p.1, p.2))
      else parseNumber (c :: r)

/-- Parse a non-empty comma-separated list of values up to `]`. -/
def parseItems : Nat → List Nat → Option (List Json × List Nat)
  | 0, _ => none
  | fuel + 1, s => do
    let (v, r) ← parseValue fuel s
    match skipWs r with
    | [] => none
    | d :: r2 =>
      if d = 44 then do
        let (xs, r3) ← parseItems fuel r2
        some (v :: xs, r3)
      else if d = 93 then some ([v], r2)
      else none

/-- Parse a non-empty comma-separated list of members up to a closing
brace. -/
def parseMembers : Nat → List Nat → Option (List (List Nat × Json) × List Nat)
  | 0, _ => none
  | fuel + 1, s =>
    match skipWs s with
    | [] => none
    | c :: r =>
      if c = 34 then do
        let (k, r1) ← parseStringBody r
        match skipWs r1 with
        | [] => none
        | d :: r3 =>
          if d = 58 then do
            let (v, r4) ← parseValue fuel r3
            match skipWs r4 with
            | [] => none
            | e :: r6 =>
              if e = 44 then do
                let (ms, r7) ← parseMembers fuel r6
                some ((k, v) :: ms, r7)
              else if e = 125 then some ([(k, v)], r6)
              else none
          else none
      else none

end

/-- Model of `JSON.parse`: parse one value and require only whitespace
to remain. -/
def jsonParse (s : List Nat) : Option Json :=
  match parseValue (s.length + 1) s with
  | some (v, rest) => if skipWs rest = [] then some v else none
  | none => none

/-! ## Round-trip lemmas: numerals, tokens, string escapes -/

theorem natNumeral_ne_nil (n : Nat) : natNumeral n ≠ [] := by
  unfold natNumeral
  split
  · simp
  · simp

theorem natNumeral_digits : ∀ n, ∀ d ∈ natNumeral n, 48 ≤ d ∧ d ≤ 57 := by
  intro n
  induction n using Nat.strong_induction_on with
  | _ n ih =>
    intro d hd
    unfold natNumeral at hd
    split at hd
    · simp at hd
      omega
    · rename_i h
      rw [List.mem_append] at hd
      rcases hd with hd | hd
      · exact ih (n / 10) (Nat.div_lt_self (by omega) (by omega)) d hd
      · simp at hd
        omega

theorem digitsToNat_append (A : List Nat) (d : Nat) :
    digitsToNat (A ++ [d]) = digitsToNat A * 10 + (d - 48) := by
  simp [digitsToNat, List.foldl_append]

theorem digitsToNat_natNumeral : ∀ n, digitsToNat (natNumeral n) = n := by
  intro n
  induction n using Nat.strong_induction_on with
  | _ n ih =>
    unfold natNumeral
    split
    · simp [digitsToNat]
    · rename_i h
      rw [digitsToNat_append, ih (n / 10) (Nat.div_lt_self (by omega) (by omega))]
      omega

/-- The next input character (if any) fails the predicate `p`. -/
def headFails (p : Nat → Bool) : List Nat → Prop
  | [] => True
  | b :: _ => p b = false

theorem takeWhile_append_all (p : Nat → Bool) :
    ∀ A B, (∀ a ∈ A, p a = true) → headFails p B → (A ++ B).takeWhile p = A := by
  intro A
  induction A with
  | nil =>
    intro B _ hB
    cases B with
    | nil => rfl
    | cons b t =>
      simp [headFails] at hB
      simp [List.takeWhile, hB]
  | cons a A ih =>
    intro B hA hB
    simp only [List.cons_append, List.takeWhile]
    rw [hA a (by simp)]
    simp [ih B (fun x hx => hA x (by simp [hx])) hB]

theorem dropWhile_append_all (p : Nat → Bool) :
    ∀ A B, (∀ a ∈ A, p a = true) → headFails p B → (A ++ B).dropWhile p = B := by
  intro A
  induction A with
  | nil =>
    intro B _ hB
    cases B with
    | nil => rfl
    | cons b t =>
      simp [headFails] at hB
      simp [List.dropWhile, hB]
  | cons a A ih =>
    intro B hA hB
    simp only [List.cons_append, List.dropWhile]
    rw [hA a (by simp)]
    simp [ih B (fun x hx => hA x (by simp [hx])) hB]

theorem parseNatNum_spec (n : Nat) (rest : List Nat) (h : headFails isDigitCode rest) :
    parseNatNum (natNumeral n ++ rest) = some (n, rest) := by
  have hall : ∀ a ∈ natNumeral n, isDigitCode a = true := by
    intro a ha
    have := natNumeral_digits n a ha
    simp [isDigitCode]
    omega
  unfold parseNatNum
  rw [takeWhile_append_all isDigitCode _ _ hall h, dropWhile_append_all isDigitCode _ _ hall h]
  simp [natNumeral_ne_nil, digitsToNat_natNumeral]

theorem parseNumber_spec (i : Int) (rest : List Nat) (h : headFails isDigitCode rest) :
    parseNumber (intNumeral i ++ rest) = some (.num i, rest) := by
  cases i with
  | ofNat n =>
    have hne := natNumeral_ne_nil n
    cases hnn : natNumeral n with
    | nil => exact absurd hnn hne
    | cons c t =>
      have hc : 48 ≤ c ∧ c ≤ 57 := natNumeral_digits n c (by rw [hnn]; simp)
      have he : intNumeral (Int.ofNat n) = c :: t := by
        simp [intNumeral, hnn]
      rw [he, List.cons_append]
      simp only [parseNumber]
      rw [if_neg (by omega)]
      have h2 : c :: (t ++ rest) = natNumeral n ++ rest := by rw [hnn]; simp
      rw [h2, parseNatNum_spec n rest h]
      simp
  | negSucc m =>
    have he : intNumeral (Int.negSucc m) = 45 :: natNumeral (m + 1) := rfl
    rw [he, List.cons_append]
    simp only [parseNumber]
    rw [if_pos trivial, parseNatNum_spec (m + 1) rest h]
    simp [Int.negSucc_eq]

theorem stripTok_append : ∀ tok rest, stripTok tok (tok ++ rest) = some rest := by
  intro tok
  induction tok with
  | nil => intro rest; rfl
  | cons c cs ih => intro rest; simp [stripTok, ih]

theorem hexVal_hexDig (x : Nat) (hx : x < 16) : hexVal (hexDig x) = some x := by
  unfold hexDig hexVal
  split_ifs <;> simp_all <;> omega

theorem parse_escString : ∀ s rest, parseStringBody (escString s ++ 34 :: rest) = some (s, rest) := by
  intro s
  induction s with
  | nil =>
    intro rest
    have he : escString [] ++ 34 :: rest = 34 :: rest := by simp [escString]
    rw [he, parseStringBody.eq_def]
    simp
  | cons c s ih =>
    intro rest
    have hes : escString (c :: s) = escChar c ++ escString s := by
      simp [escString]
    rw [hes, List.append_assoc]
    unfold escChar
    split_ifs with h1 h2 h3 h4 h5 h6 h7 h8
    · subst h1
      rw [List.cons_append, List.cons_append, List.nil_append, parseStringBody.eq_def]
      simp [unesc, ih]
    · subst h2
      rw [List.cons_append, List.cons_append, List.nil_append, parseStringBody.eq_def]
      simp [unesc, ih]
    · subst h3
      rw [List.cons_append, List.cons_append, List.nil_append, parseStringBody.eq_def]
      simp [unesc, ih]
    · subst h4
      rw [List.cons_append, List.cons_append, List.nil_append, parseStringBody.eq_def]
      simp [unesc, ih]
    · subst h5
      rw [List.cons_append, List.cons_append, List.nil_append, parseStringBody.eq_def]
      simp [unesc, ih]
    · subst h6
      rw [List.cons_append, List.cons_append, List.nil_append, parseStringBody.eq_def]
      simp [unesc, ih]
    · subst h7
      rw [List.cons_append, List.cons_append, List.nil_append, parseStringBody.eq_def]
      simp [unesc, ih]
    · have hv1 : hexVal 48 = some 0 := by simp [hexVal]
      have hv2 : hexVal (hexDig (c / 16)) = some (c / 16) := hexVal_hexDig _ (by omega)
      have hv3 : hexVal (hexDig (c % 16)) = some (c % 16) := hexVal_hexDig _ (by omega)
      simp only [List.cons_append, List.nil_append]
      rw [parseStringBody.eq_def]
      simp [hv1, hv2, hv3, ih]
      omega
    · simp only [List.cons_append, List.nil_append]
      rw [parseStringBody.eq_def]
      simp [h1, h2, (by omega : ¬c < 32), ih]
      omega

theorem skipWs_cons (c : Nat) (r : List Nat) (h : isWs c = false) : skipWs (c :: r) = c :: r := by
  simp [skipWs, List.dropWhile, h]

theorem intNumeral_head (i : Int) :
    ∃ c t, intNumeral i = c :: t ∧ (c = 45 ∨ 48 ≤ c ∧ c ≤ 57) := by
  cases i with
  | ofNat n =>
    cases hnn : natNumeral n with
    | nil => exact absurd hnn (natNumeral_ne_nil n)
    | cons c t =>
      have hc := natNumeral_digits n c (by rw [hnn]; simp)
      exact ⟨c, t, by simp [intNumeral, hnn], Or.inr hc⟩
  | negSucc m => exact ⟨45, natNumeral (m + 1), rfl, Or.inl rfl⟩

theorem stringify_head (v : Json) :
    ∃ c t, jsonStringify v = c :: t ∧ isWs c = false ∧ c ≠ 93 := by
  cases v with
  | null => exact ⟨110, [117, 108, 108], by simp [jsonStringify], by decide, by decide⟩
  | bool b =>
    cases b with
    | true => exact ⟨116, [114, 117, 101], by simp [jsonStringify], by decide, by decide⟩
    | false => exact ⟨102, [97, 108, 115, 101], by simp [jsonStringify], by decide, by decide⟩
  | num i =>
    obtain ⟨c, t, hct, hc⟩ := intNumeral_head i
    refine ⟨c, t, by simp [jsonStringify, hct], ?_, ?_⟩
    · simp [isWs]
      omega
    · omega
  | str s => exact ⟨34, escString s ++ [34], by simp [jsonStringify, strLit], by decide, by decide⟩
  | arr xs => exact ⟨91, itemsStr xs ++ [93], by simp [jsonStringify], by decide, by decide⟩
  | obj ms => exact ⟨123, membersStr ms ++ [125], by simp [jsonStringify], by decide, by decide⟩

theorem stringify_ne_nil (v : Json) : (jsonStringify v).length ≥ 1 := by
  obtain ⟨c, t, hct, _, _⟩ := stringify_head v
  simp [hct]

theorem itemsStr_head (x : Json) (xs : List Json) :
    ∃ c t, itemsStr (x :: xs) = c :: t ∧ isWs c = false ∧ c ≠ 93 := by
  obtain ⟨c, t, hct, hw, h93⟩ := stringify_head x
  cases xs with
  | nil => exact ⟨c, t, by simp [itemsStr, hct], hw, h93⟩
  | cons y ys => exact ⟨c, t ++ 44 :: itemsStr (y :: ys), by simp [itemsStr, hct], hw, h93⟩

theorem membersStr_head (m : List Nat × Json) (ms : List (List Nat × Json)) :
    ∃ t, membersStr (m :: ms) = 34 :: t := by
  obtain ⟨k, v⟩ := m
  cases ms with
  | nil => exact ⟨escString k ++ [34] ++ 58 :: jsonStringify v, by simp [membersStr, strLit]⟩
  | cons m2 ms2 =>
    exact ⟨escString k ++ [34] ++ 58 :: jsonStringify v ++ 44 :: membersStr (m2 :: ms2),
      by simp [membersStr, strLit]⟩

theorem parse_stringify_aux : ∀ fuel,
    (∀ v rest, (jsonStringify v).length < fuel → headFails isDigitCode rest →
      parseValue fuel (jsonStringify v ++ rest) = some (v, rest)) ∧
    (∀ xs rest, xs ≠ [] → (itemsStr xs).length + 1 < fuel →
      parseItems fuel (itemsStr xs ++ 93 :: rest) = some (xs, rest)) ∧
    (∀ ms rest, ms ≠ [] → (membersStr ms).length + 1 < fuel →
      parseMembers fuel (membersStr ms ++ 125 :: rest) = some (ms, rest)) := by
  intro fuel
  induction fuel with
  | zero =>
    exact ⟨fun v rest h _ => absurd h (by omega),
      fun xs rest _ h => absurd h (by omega),
      fun ms rest _ h => absurd h (by omega)⟩
  | succ fuel ih =>
    obtain ⟨ihv, ihi, ihm⟩ := ih
    refine ⟨?_, ?_, ?_⟩
    · intro v rest hlen hrest
      cases v with
      | null =>
        have hs : jsonStringify Json.null = [110, 117, 108, 108] := by simp [jsonStringify]
        rw [hs]
        simp only [parseValue, List.cons_append]
        rw [skipWs_cons _ _ (by decide)]
        have hst : stripTok [117, 108, 108] (117 :: 108 :: 108 :: rest) = some rest :=
          stripTok_append [117, 108, 108] rest
        simp [hst]
      | bool b =>
        cases b with
        | true =>
          have hs : jsonStringify (Json.bool true) = [116, 114, 117, 101] := by
            simp [jsonStringify]
          rw [hs]
          simp only [parseValue, List.cons_append]
          rw [skipWs_cons _ _ (by decide)]
          have hst : stripTok [114, 117, 101] (114 :: 117 :: 101 :: rest) = some rest :=
            stripTok_append [114, 117, 101] rest
          simp [hst]
        | false =>
          have hs : jsonStringify (Json.bool false) = [102, 97, 108, 115, 101] := by
            simp [jsonStringify]
          rw [hs]
          simp only [parseValue, List.cons_append]
          rw [skipWs_cons _ _ (by decide)]
          have hst : stripTok [97, 108, 115, 101] (97 :: 108 :: 115 :: 101 :: rest) = some rest :=
            stripTok_append [97, 108, 115, 101] rest
          simp [hst]
      | num i =>
        obtain ⟨c, t, hct, hc⟩ := intNumeral_head i
        have hs : jsonStringify (Json.num i) = c :: t := by simp [jsonStringify, hct]
        rw [hs]
        simp only [parseValue, List.cons_append]
        rw [skipWs_cons _ _ (by simp [isWs]; omega)]
        have h110 : ¬ c = 110 := by omega
        have h116 : ¬ c = 116 := by omega
        have h102 : ¬ c = 102 := by omega
        have h34 : ¬ c = 34 := by omega
        have h91 : ¬ c = 91 := by omega
        have h123 : ¬ c = 123 := by omega
        have hpn : parseNumber (c :: (t ++ rest)) = some (Json.num i, rest) := by
          have h2 : c :: (t ++ rest) = intNumeral i ++ rest := by rw [hct]; simp
          rw [h2]
          exact parseNumber_spec i rest hrest
        simp [h110, h116, h102, h34, h91, h123, hpn]
      | str s =>
        have hs : jsonStringify (Json.str s) = 34 :: (escString s ++ [34]) := by
          simp [jsonStringify, strLit]
        rw [hs]
        simp only [parseValue, List.cons_append]
        rw [skipWs_cons _ _ (by decide)]
        simp [parse_escString s rest]
      | arr xs =>
        cases xs with
        | nil =>
          have hs : jsonStringify (Json.arr []) = [91, 93] := by
            simp [jsonStringify, itemsStr]
          rw [hs]
          simp only [parseValue, List.cons_append]
          rw [skipWs_cons _ _ (by decide)]
          simp only [List.cons_append, List.nil_append]
          rw [show skipWs (93 :: rest) = 93 :: rest from skipWs_cons _ _ (by decide)]
          simp
        | cons x xs =>
          have hs : jsonStringify (Json.arr (x :: xs)) = 91 :: (itemsStr (x :: xs) ++ [93]) := by
            simp [jsonStringify]
          rw [hs] at hlen ⊢
          obtain ⟨d, t, hdt, hw, h93⟩ := itemsStr_head x xs
          have hlt : (itemsStr (x :: xs)).length + 1 < fuel := by simp at hlen; omega
          simp only [parseValue, List.cons_append]
          rw [skipWs_cons _ _ (by decide)]
          have hpi : parseItems fuel (itemsStr (x :: xs) ++ 93 :: rest) = some (x :: xs, rest) :=
            ihi (x :: xs) rest (by simp) hlt
          have hsk2 : skipWs (itemsStr (x :: xs) ++ 93 :: rest) = d :: (t ++ 93 :: rest) := by
            rw [hdt, List.cons_append]
            exact skipWs_cons _ _ hw
          have hpi2 : parseItems fuel (d :: (t ++ 93 :: rest)) = some (x :: xs, rest) := by
            rw [← List.cons_append, ← hdt]
            exact hpi
          simp [hsk2, h93, hpi2]
      | obj ms =>
        cases ms with
        | nil =>
          have hs : jsonStringify (Json.obj []) = [123, 125] := by
            simp [jsonStringify, membersStr]
          rw [hs]
          simp only [parseValue, List.cons_append]
          rw [skipWs_cons _ _ (by decide)]
          simp only [List.cons_append, List.nil_append]
          rw [show skipWs (125 :: rest) = 125 :: rest from skipWs_cons _ _ (by decide)]
          simp
        | cons m ms =>
          have hs : jsonStringify (Json.obj (m :: ms)) = 123 :: (membersStr (m :: ms) ++ [125]) := by
            simp [jsonStringify]
          rw [hs] at hlen ⊢
          obtain ⟨t, hdt⟩ := membersStr_head m ms
          have hlt : (membersStr (m :: ms)).length + 1 < fuel := by simp at hlen; omega
          simp only [parseValue, List.cons_append]
          rw [skipWs_cons _ _ (by decide)]
          have hpm : parseMembers fuel (membersStr (m :: ms) ++ 125 :: rest) =
              some (m :: ms, rest) :=
            ihm (m :: ms) rest (by simp) hlt
          have hsk2 : skipWs (membersStr (m :: ms) ++ 125 :: rest) = 34 :: (t ++ 125 :: rest) := by
            rw [hdt, List.cons_append]
            exact skipWs_cons _ _ (by decide)
          have hpm2 : parseMembers fuel (34 :: (t ++ 125 :: rest)) = some (m :: ms, rest) := by
            rw [← List.cons_append, ← hdt]
            exact hpm
          simp [hsk2, hpm2]
    · intro xs rest hne hlen
      cases xs with
      | nil => exact absurd rfl hne
      | cons x xs =>
        cases xs with
        | nil =>
          have hs : itemsStr [x] = jsonStringify x := by simp [itemsStr]
          rw [hs] at hlen ⊢
          have hpv : parseValue fuel (jsonStringify x ++ 93 :: rest) = some (x, 93 :: rest) :=
            ihv x (93 :: rest) (by omega) (by simp [headFails, isDigitCode])
          simp only [parseItems]
          rw [hpv]
          simp only [Option.bind_eq_bind, Option.some_bind]
          rw [skipWs_cons _ _ (by decide)]
          simp
        | cons y ys =>
          have hs : itemsStr (x :: y :: ys) = jsonStringify x ++ 44 :: itemsStr (y :: ys) := by
            simp [itemsStr]
          rw [hs] at hlen ⊢
          have hgx := stringify_ne_nil x
          have hlx : (jsonStringify x).length < fuel := by simp at hlen; omega
          have hli : (itemsStr (y :: ys)).length + 1 < fuel := by simp at hlen; omega
          have h2 : (jsonStringify x ++ 44 :: itemsStr (y :: ys)) ++ 93 :: rest =
              jsonStringify x ++ 44 :: (itemsStr (y :: ys) ++ 93 :: rest) := by simp
          rw [h2]
          have hpv : parseValue fuel (jsonStringify x ++ 44 :: (itemsStr (y :: ys) ++ 93 :: rest)) =
              some (x, 44 :: (itemsStr (y :: ys) ++ 93 :: rest)) :=
            ihv x _ hlx (by simp [headFails, isDigitCode])
          have hpi : parseItems fuel (itemsStr (y :: ys) ++ 93 :: rest) = some (y :: ys, rest) :=
            ihi (y :: ys) rest (by simp) hli
          simp only [parseItems]
          rw [hpv]
          simp only [Option.bind_eq_bind, Option.some_bind]
          rw [skipWs_cons _ _ (by decide)]
          simp [hpi]
    · intro ms rest hne hlen
      cases ms with
      | nil => exact absurd rfl hne
      | cons m ms =>
        obtain ⟨k, v⟩ := m
        cases ms with
        | nil =>
          have hs : membersStr [(k, v)] = (34 :: (escString k ++ [34])) ++ 58 :: jsonStringify v := by
            simp [membersStr, strLit]
          rw [hs] at hlen ⊢
          have hlv : (jsonStringify v).length < fuel := by simp at hlen; omega
          have h2 : ((34 :: (escString k ++ [34])) ++ 58 :: jsonStringify v) ++ 125 :: rest =
              34 :: (escString k ++ 34 :: (58 :: (jsonStringify v ++ 125 :: rest))) := by simp
          rw [h2]
          have hpv : parseValue fuel (jsonStringify v ++ 125 :: rest) = some (v, 125 :: rest) :=
            ihv v (125 :: rest) hlv (by simp [headFails, isDigitCode])
          simp only [parseMembers]
          rw [skipWs_cons _ _ (by decide)]
          have hk := parse_escString k (58 :: (jsonStringify v ++ 125 :: rest))
          simp only [hk]
          simp only [Option.bind_eq_bind, Option.some_bind]
          rw [skipWs_cons _ _ (by decide)]
          simp only [List.cons_append]
          rw [hpv]
          simp only [Option.bind_eq_bind, Option.some_bind]
          rw [skipWs_cons _ _ (by decide)]
          simp
        | cons m2 ms2 =>
          have hs : membersStr ((k, v) :: m2 :: ms2) =
              (34 :: (escString k ++ [34])) ++ 58 :: jsonStringify v ++ 44 :: membersStr (m2 :: ms2) := by
            simp [membersStr, strLit]
          rw [hs] at hlen ⊢
          have hgv := stringify_ne_nil v
          have hlv : (jsonStringify v).length < fuel := by simp at hlen; omega
          have hlm : (membersStr (m2 :: ms2)).length + 1 < fuel := by simp at hlen; omega
          have h2 : ((34 :: (escString k ++ [34])) ++ 58 :: jsonStringify v ++ 44 :: membersStr (m2 :: ms2)) ++ 125 :: rest =
              34 :: (escString k ++ 34 :: (58 :: (jsonStringify v ++ 44 :: (membersStr (m2 :: ms2) ++ 125 :: rest)))) := by
            simp
          rw [h2]
          have hpv : parseValue fuel (jsonStringify v ++ 44 :: (membersStr (m2 :: ms2) ++ 125 :: rest)) =
              some (v, 44 :: (membersStr (m2 :: ms2) ++ 125 :: rest)) :=
            ihv v _ hlv (by simp [headFails, isDigitCode])
          have hpm : parseMembers fuel (membersStr (m2 :: ms2) ++ 125 :: rest) =
              some (m2 :: ms2, rest) :=
            ihm (m2 :: ms2) rest (by simp) hlm
          simp only [parseMembers]
          rw [skipWs_cons _ _ (by decide)]
          have hk := parse_escString k (58 :: (jsonStringify v ++ 44 :: (membersStr (m2 :: ms2) ++ 125 :: rest)))
          simp only [hk]
          simp only [Option.bind_eq_bind, Option.some_bind]
          rw [skipWs_cons _ _ (by decide)]
          simp only [List.cons_append]
          rw [hpv]
          simp only [Option.bind_eq_bind, Option.some_bind]
          rw [skipWs_cons _ _ (by decide)]
          simp [hpm]

/-- `JSON.parse` inverts `JSON.stringify` on every modelled value. -/
theorem jsonParse_stringify (v : Json) : jsonParse (jsonStringify v) = some v := by
  have h := (parse_stringify_aux ((jsonStringify v).length + 1)).1 v [] (by omega) trivial
  rw [List.append_nil] at h
  simp [jsonParse, h, skipWs]

/-! ## Run-length compression (`simpleCompress` / `simpleDecompress`)

The custom marker-prefixed run-length scheme of `transform.ts`: runs of
four or more identical characters (capped at 255) become
`\x00<count><char>`; the whole output is kept, prefixed with `\x01`,
only when it is strictly shorter than the input; inputs below the
threshold are returned untouched. -/

/-- `DEFAULT_COMPRESSION_THRESHOLD` from `constants.ts`. -/
def DEFAULT_COMPRESSION_THRESHOLD : Nat := 1024

/-- Flush one run: encoded form for runs of length ≥ 4, literal
repetition otherwise. -/
def encodeGroup (prev count : Nat) : List Nat :=
  if 4 ≤ count then [0, count, prev] else List.replicate count prev

/-- The scanning loop of `simpleCompress` (current run character,
current run length, remaining input). -/
def rleBody : Nat → Nat → List Nat → List Nat
  | prev, count, [] => encodeGroup prev count
  | prev, count, c :: rest =>
    if c = prev ∧ count < 255 then rleBody prev (count + 1) rest
    else encodeGroup prev count ++ rleBody c 1 rest

/-- Model of `simpleCompress`. The empty-input arm is unreachable when
the length threshold holds; it returns the input unchanged. -/
def simpleCompress (s : List Nat) : List Nat :=
  if s.length < DEFAULT_COMPRESSION_THRESHOLD then s
  else
    match s with
    | [] => s
    | c :: rest =>
      let result := rleBody c 1 rest
      if result.length < s.length then 1 :: result else s

/-- The decoding loop of `simpleDecompress`; `none` models the
`TypeError` thrown on a truncated `\x00` marker (swallowed by the
pipeline's try/catch). -/
def rleDecode : List Nat → Option (List Nat)
  | [] => some []
  | c :: rest =>
    if c = 0 then
      match rest with
      | count :: ch :: rest2 => (rleDecode rest2).map (List.replicate count ch ++ ·)
      | _ => none
    else (rleDecode rest).map (c :: ·)

/-- Model of `simpleDecompress`: pass through unless the input carries
the `\x01` compression marker. -/
def simpleDecompress (s : List Nat) : Option (List Nat) :=
  match s with
  | c :: body => if c = 1 then rleDecode body else some (c :: body)
  | [] => some []

theorem rleDecode_replicate (n a : Nat) (tail : List Nat) (ha : a ≠ 0) :
    rleDecode (List.replicate n a ++ tail) = (rleDecode tail).map (List.replicate n a ++ ·) := by
  induction n with
  | zero =>
    cases h : rleDecode tail <;> simp [h]
  | succ n ih =>
    rw [List.replicate_succ, List.cons_append]
    rw [rleDecode.eq_def]
    simp only [ha, if_neg, ite_false]
    rw [ih]
    cases h : rleDecode tail <;> simp [h, List.replicate_succ]

theorem rleDecode_group (prev count : Nat) (tail : List Nat) (hp : prev ≠ 0) :
    rleDecode (encodeGroup prev count ++ tail) =
      (rleDecode tail).map (List.replicate count prev ++ ·) := by
  unfold encodeGroup
  split
  · rw [show ([0, count, prev] : List Nat) ++ tail = 0 :: count :: prev :: tail from rfl]
    rw [rleDecode.eq_def]
    simp
  · exact rleDecode_replicate count prev tail hp

theorem rleDecode_rleBody :
    ∀ rest prev count, prev ≠ 0 → (∀ c ∈ rest, c ≠ 0) → 1 ≤ count →
      rleDecode (rleBody prev count rest) = some (List.replicate count prev ++ rest) := by
  intro rest
  induction rest with
  | nil =>
    intro prev count hp _ hcount
    simp only [rleBody]
    have h := rleDecode_group prev count [] hp
    rw [List.append_nil] at h
    simp [h, rleDecode]
  | cons c rest ih =>
    intro prev count hp hc hcount
    simp only [rleBody]
    split
    · rename_i hcond
      rw [ih prev (count + 1) hp (fun x hx => hc x (by simp [hx])) (by omega)]
      rw [hcond.1]
      rw [List.replicate_succ']
      simp
    · have hcne : c ≠ 0 := hc c (by simp)
      rw [rleDecode_group prev count _ hp]
      rw [ih c 1 hcne (fun x hx => hc x (by simp [hx])) (by omega)]
      simp

theorem simpleDecompress_pass (s : List Nat) (h : headFails (fun c => c == 1) s) :
    simpleDecompress s = some s := by
  cases s with
  | nil => rfl
  | cons c body =>
    simp [headFails] at h
    simp [simpleDecompress, h]

theorem simpleDecompress_simpleCompress (s : List Nat)
    (h : ∀ c ∈ s, c ≠ 0 ∧ c ≠ 1) :
    simpleDecompress (simpleCompress s) = some s := by
  unfold simpleCompress
  split
  · apply simpleDecompress_pass
    cases s with
    | nil => trivial
    | cons c body =>
      have := h c (by simp)
      simp [headFails]
      omega
  · rename_i hlen
    cases s with
    | nil => rfl
    | cons c rest =>
      simp only []
      split
      · rename_i hshort
        have hd : rleDecode (rleBody c 1 rest) = some (List.replicate 1 c ++ rest) :=
          rleDecode_rleBody rest c 1 (h c (by simp)).1
            (fun x hx => (h x (by simp [hx])).1) (by omega)
        simp [simpleDecompress, hd]
      · apply simpleDecompress_pass
        have := h c (by simp)
        simp [headFails]
        omega

/-! ## Obfuscation layer (`base64Encode` / `base64Decode`)

The source composes `encodeURIComponent` (UTF-8 percent-encoding), a
percent-to-byte rewrite, and `btoa`. Net effect: base64 over the UTF-8
bytes of the string; the decoder inverts it and, per the source's
try/catch, falls back to returning its input verbatim on any failure. -/

/-- Unicode scalar value usable by `encodeURIComponent` (not a
surrogate, below 0x110000). -/
def validScalar (c : Nat) : Bool :=
  decide (c < 1114112) && (decide (c < 55296) || decide (57344 ≤ c))

/-- UTF-8 bytes of one scalar value. -/
def utf8Char (c : Nat) : List Nat :=
  if c < 128 then [c]
  else if c < 2048 then [192 + c / 64, 128 + c % 64]
  else if c < 65536 then [224 + c / 4096, 128 + c / 64 % 64, 128 + c % 64]
  else [240 + c / 262144, 128 + c / 4096 % 64, 128 + c / 64 % 64, 128 + c % 64]

/-- UTF-8 bytes of a string. -/
def utf8Encode (s : List Nat) : List Nat :=
  (s.map utf8Char).flatten

/-- A UTF-8 continuation byte. -/
def contByte (b : Nat) : Bool :=
  128 ≤ b && b < 192

/-- Split one code point off a UTF-8 byte sequence; `none` on malformed
input (modelling the `URIError` of `decodeURIComponent`). -/
def utf8Split (s : List Nat) : Option (Nat × List Nat) :=
  match s with
  | [] => none
  | b :: rest =>
    if b < 128 then some (b, rest)
    else if b < 192 then none
    else if b < 224 then
      match rest with
      | b2 :: rest2 =>
        if contByte b2 then some ((b - 192) * 64 + (b2 - 128), rest2) else none
      | [] => none
    else if b < 240 then
      match rest with
      | b2 :: b3 :: rest2 =>
        if contByte b2 && contByte b3 then
          some ((b - 224) * 4096 + (b2 - 128) * 64 + (b3 - 128), rest2)
        else none
      | _ => none
    else
      match rest with
      | b2 :: b3 :: b4 :: rest2 =>
        if (contByte b2 && contByte b3) && contByte b4 then
          some ((b - 240) * 262144 + (b2 - 128) * 4096 + (b3 - 128) * 64 + (b4 - 128), rest2)
        else none
      | _ => none

/-- Fueled UTF-8 decoding loop; one unit of fuel per decoded code
point, so the byte length is always enough fuel. -/
def utf8DecodeF : Nat → List Nat → Option (List Nat)
  | _, [] => some []
  | 0, _ :: _ => none
  | fuel + 1, b :: rest =>
    match utf8Split (b :: rest) with
    | some (c, rest2) => (utf8DecodeF fuel rest2).map (c :: ·)
    | none => none

/-- Strict UTF-8 decoding of a whole byte sequence. -/
def utf8Decode (s : List Nat) : Option (List Nat) :=
  utf8DecodeF s.length s

theorem utf8Char_bytes (c : Nat) (h : c < 1114112) : ∀ b ∈ utf8Char c, b < 256 := by
  intro b hb
  unfold utf8Char at hb
  split_ifs at hb <;> simp at hb <;> omega

theorem utf8Split_char (c : Nat) (tail : List Nat) (h : validScalar c = true) :
    utf8Split (utf8Char c ++ tail) = some (c, tail) := by
  have hc : c < 1114112 := by
    simp [validScalar] at h
    omega
  unfold utf8Char
  split_ifs with h1 h2 h3
  · simp [utf8Split, h1]
  · simp only [List.cons_append, List.nil_append]
    have e1 : ¬(192 + c / 64 < 128) := by omega
    have e2 : ¬(192 + c / 64 < 192) := by omega
    have e3 : 192 + c / 64 < 224 := by omega
    have e4 : contByte (128 + c % 64) = true := by simp [contByte]; omega
    simp [utf8Split, e1, e2, e3, e4]
    omega
  · simp only [List.cons_append, List.nil_append]
    have e1 : ¬(224 + c / 4096 < 128) := by omega
    have e2 : ¬(224 + c / 4096 < 192) := by omega
    have e3 : ¬(224 + c / 4096 < 224) := by omega
    have e4 : 224 + c / 4096 < 240 := by omega
    have e5 : contByte (128 + c / 64 % 64) = true := by simp [contByte]; omega
    have e6 : contByte (128 + c % 64) = true := by simp [contByte]; omega
    simp [utf8Split, e1, e2, e3, e4, e5, e6]
    omega
  · simp only [List.cons_append, List.nil_append]
    have e1 : ¬(240 + c / 262144 < 128) := by omega
    have e2 : ¬(240 + c / 262144 < 192) := by omega
    have e3 : ¬(240 + c / 262144 < 224) := by omega
    have e4 : ¬(240 + c / 262144 < 240) := by omega
    have e5 : contByte (128 + c / 4096 % 64) = true := by simp [contByte]; omega
    have e6 : contByte (128 + c / 64 % 64) = true := by simp [contByte]; omega
    have e7 : contByte (128 + c % 64) = true := by simp [contByte]; omega
    simp [utf8Split, e1, e2, e3, e4, e5, e6, e7]
    omega

theorem utf8Char_ne_nil (c : Nat) : utf8Char c ≠ [] := by
  unfold utf8Char
  split_ifs <;> simp

theorem utf8DecodeF_succ (fuel : Nat) (b : Nat) (rest : List Nat) :
    utf8DecodeF (fuel + 1) (b :: rest) =
      match utf8Split (b :: rest) with
      | some (c, rest2) => (utf8DecodeF fuel rest2).map (c :: ·)
      | none => none := rfl

theorem utf8Encode_length (s : List Nat) : s.length ≤ (utf8Encode s).length := by
  induction s with
  | nil => simp [utf8Encode]
  | cons c s ih =>
    have he : utf8Encode (c :: s) = utf8Char c ++ utf8Encode s := by simp [utf8Encode]
    have h1 : 1 ≤ (utf8Char c).length := by
      cases hch : utf8Char c with
      | nil => exact absurd hch (utf8Char_ne_nil c)
      | cons a t => simp
    rw [he]
    simp
    omega

theorem utf8DecodeF_encode :
    ∀ s fuel, s.length ≤ fuel → (∀ c ∈ s, validScalar c = true) →
      utf8DecodeF fuel (utf8Encode s) = some s := by
  intro s
  induction s with
  | nil =>
    intro fuel _ _
    have he : utf8Encode [] = [] := rfl
    rw [he]
    cases fuel <;> rfl
  | cons c s ih =>
    intro fuel hfuel hval
    have he : utf8Encode (c :: s) = utf8Char c ++ utf8Encode s := by
      simp [utf8Encode]
    cases fuel with
    | zero => simp at hfuel
    | succ fuel =>
      rw [he]
      have hsp := utf8Split_char c (utf8Encode s) (hval c (by simp))
      cases hch : utf8Char c with
      | nil => exact absurd hch (utf8Char_ne_nil c)
      | cons b bs =>
        rw [hch] at hsp
        rw [List.cons_append] at hsp
        rw [List.cons_append, utf8DecodeF_succ, hsp]
        simp [ih fuel (by simp at hfuel; omega) (fun x hx => hval x (by simp [hx]))]

theorem utf8Decode_utf8Encode (s : List Nat) (h : ∀ c ∈ s, validScalar c = true) :
    utf8Decode (utf8Encode s) = some s :=
  utf8DecodeF_encode s (utf8Encode s).length (utf8Encode_length s) h

theorem utf8Encode_bytes (s : List Nat) (h : ∀ c ∈ s, validScalar c = true) :
    ∀ b ∈ utf8Encode s, b < 256 := by
  intro b hb
  simp [utf8Encode] at hb
  obtain ⟨c, hc, hbc⟩ := hb
  have := h c hc
  simp [validScalar] at this
  exact utf8Char_bytes c (by omega) b hbc

/-- Character of the base64 alphabet for a 6-bit value. -/
def b64char (n : Nat) : Nat :=
  if n < 26 then 65 + n
  else if n < 52 then 97 + (n - 26)
  else if n < 62 then 48 + (n - 52)
  else if n = 62 then 43
  else 47

/-- Inverse of the base64 alphabet; `none` models the
`InvalidCharacterError` of `atob`. -/
def b64val (c : Nat) : Option Nat :=
  if 65 ≤ c && c ≤ 90 then some (c - 65)
  else if 97 ≤ c && c ≤ 122 then some (c - 97 + 26)
  else if 48 ≤ c && c ≤ 57 then some (c - 48 + 52)
  else if c = 43 then some 62
  else if c = 47 then some 63
  else none

/-- Model of `btoa` on a byte sequence: groups of three bytes become
four alphabet characters, with `=` padding for short tails. -/
def b64encode : List Nat → List Nat
  | [] => []
  | [b1] => [b64char (b1 / 4), b64char (b1 % 4 * 16), 61, 61]
  | [b1, b2] => [b64char (b1 / 4), b64char (b1 % 4 * 16 + b2 / 16), b64char (b2 % 16 * 4), 61]
  | b1 :: b2 :: b3 :: rest =>
    b64char (b1 / 4) :: b64char (b1 % 4 * 16 + b2 / 16) ::
      b64char (b2 % 16 * 4 + b3 / 64) :: b64char (b3 % 64) :: b64encode rest

/-- Model of `atob`: decode four characters at a time, allowing `=`
padding only in the final quartet. -/
def b64decode : List Nat → Option (List Nat)
  | [] => some []
  | c1 :: c2 :: c3 :: c4 :: rest => do
    let v1 ← b64val c1
    let v2 ← b64val c2
    if c3 = 61 then
      if rest = [] ∧ c4 = 61 then some [v1 * 4 + v2 / 16] else none
    else do
      let v3 ← b64val c3
      if c4 = 61 then
        if rest = [] then some [v1 * 4 + v2 / 16, v2 % 16 * 16 + v3 / 4] else none
      else do
        let v4 ← b64val c4
        let tail ← b64decode rest
        some ((v1 * 4 + v2 / 16) :: (v2 % 16 * 16 + v3 / 4) :: (v3 % 4 * 64 + v4) :: tail)
  | _ => none

theorem b64val_b64char : ∀ n < 64, b64val (b64char n) = some n := by decide

theorem b64char_ne_pad : ∀ n < 64, b64char n ≠ 61 := by decide

theorem b64decode_b64encode_aux :
    ∀ n bs, bs.length ≤ n → (∀ b ∈ bs, b < 256) → b64decode (b64encode bs) = some bs := by
  intro n
  induction n using Nat.strong_induction_on with
  | _ n ih =>
    intro bs hlen hb
    match bs with
    | [] => simp [b64encode, b64decode]
    | [b1] =>
      have h1 := hb b1 (by simp)
      have e1 := b64val_b64char (b1 / 4) (by omega)
      have e2 := b64val_b64char (b1 % 4 * 16) (by omega)
      simp [b64encode, b64decode, e1, e2]
      omega
    | [b1, b2] =>
      have h1 := hb b1 (by simp)
      have h2 := hb b2 (by simp)
      have e1 := b64val_b64char (b1 / 4) (by omega)
      have e2 := b64val_b64char (b1 % 4 * 16 + b2 / 16) (by omega)
      have e3 := b64val_b64char (b2 % 16 * 4) (by omega)
      have ne3 := b64char_ne_pad (b2 % 16 * 4) (by omega)
      simp [b64encode, b64decode, e1, e2, e3, ne3]
      omega
    | b1 :: b2 :: b3 :: rest =>
      have h1 := hb b1 (by simp)
      have h2 := hb b2 (by simp)
      have h3 := hb b3 (by simp)
      have e1 := b64val_b64char (b1 / 4) (by omega)
      have e2 := b64val_b64char (b1 % 4 * 16 + b2 / 16) (by omega)
      have e3 := b64val_b64char (b2 % 16 * 4 + b3 / 64) (by omega)
      have e4 := b64val_b64char (b3 % 64) (by omega)
      have ne3 := b64char_ne_pad (b2 % 16 * 4 + b3 / 64) (by omega)
      have ne4 := b64char_ne_pad (b3 % 64) (by omega)
      have hrec : b64decode (b64encode rest) = some rest := by
        refine ih (n - 1) (by simp at hlen; omega) rest (by simp at hlen; omega) ?_
        intro x hx
        exact hb x (by simp [hx])
      have hsh : b64encode (b1 :: b2 :: b3 :: rest) =
          b64char (b1 / 4) :: b64char (b1 % 4 * 16 + b2 / 16) ::
            b64char (b2 % 16 * 4 + b3 / 64) :: b64char (b3 % 64) :: b64encode rest := by
        simp [b64encode]
      rw [hsh]
      simp [b64decode, e1, e2, e3, e4, ne3, ne4, hrec]
      omega

theorem b64decode_b64encode (bs : List Nat) (hb : ∀ b ∈ bs, b < 256) :
    b64decode (b64encode bs) = some bs :=
  b64decode_b64encode_aux bs.length bs (le_refl _) hb

/-- Model of the source `base64Encode`: UTF-8 percent-encoding trick
followed by `btoa`. -/
def base64Encode (s : List Nat) : List Nat :=
  b64encode (utf8Encode s)

/-- Model of the source `base64Decode`: `atob` plus
`decodeURIComponent`, returning the input verbatim when either throws
(the catch-all fallback in the source). -/
def base64Decode (s : List Nat) : List Nat :=
  match (b64decode s).bind utf8Decode with
  | some r => r
  | none => s

theorem base64_round_trip (s : List Nat) (h : ∀ c ∈ s, validScalar c = true) :
    base64Decode (base64Encode s) = s := by
  unfold base64Encode base64Decode
  rw [b64decode_b64encode (utf8Encode s) (utf8Encode_bytes s h)]
  rw [Option.some_bind, utf8Decode_utf8Encode s h]

/-! ## Validity of JSON values and the character classes of stringify output -/

mutual

/-- All string code points of the value (contents and object keys) are
Unicode scalar values — exactly the JSON-representable strings a
well-formed `JSON.stringify` can produce. -/
def jsonValidB : Json → Bool
  | .null => true
  | .bool _ => true
  | .num _ => true
  | .str s => s.all validScalar
  | .arr xs => jsonValidArr xs
  | .obj ms => jsonValidObj ms

/-- Validity of every element of an array. -/
def jsonValidArr : List Json → Bool
  | [] => true
  | x :: xs => jsonValidB x && jsonValidArr xs

/-- Validity of every key and value of an object. -/
def jsonValidObj : List (List Nat × Json) → Bool
  | [] => true
  | (k, v) :: ms => (k.all validScalar && jsonValidB v) && jsonValidObj ms

end

theorem jsonValidArr_mem : ∀ xs, jsonValidArr xs = true → ∀ x ∈ xs, jsonValidB x = true := by
  intro xs
  induction xs with
  | nil => intro _ x hx; simp at hx
  | cons y ys ih =>
    intro h x hx
    simp only [jsonValidArr, Bool.and_eq_true] at h
    rw [List.mem_cons] at hx
    rcases hx with rfl | hx
    · exact h.1
    · exact ih h.2 x hx

theorem jsonValidObj_mem : ∀ ms, jsonValidObj ms = true →
    ∀ k v, (k, v) ∈ ms → k.all validScalar = true ∧ jsonValidB v = true := by
  intro ms
  induction ms with
  | nil => intro _ k v hkv; simp at hkv
  | cons m ms ih =>
    intro h k v hkv
    obtain ⟨k0, v0⟩ := m
    simp only [jsonValidObj, Bool.and_eq_true] at h
    rw [List.mem_cons] at hkv
    rcases hkv with heq | hkv
    · cases heq
      exact h.1
    · exact ih h.2 k v hkv

theorem validScalar_small (d : Nat) (h : d < 55296) : validScalar d = true := by
  simp [validScalar]
  omega

theorem escChar_good (c : Nat) (h : validScalar c = true) :
    ∀ d ∈ escChar c, 32 ≤ d ∧ validScalar d = true := by
  intro d hd
  have hdig : ∀ x, x < 16 → 48 ≤ hexDig x ∧ hexDig x < 123 := by
    intro x hx
    unfold hexDig
    split <;> omega
  unfold escChar at hd
  split_ifs at hd with h1 h2 h3 h4 h5 h6 h7 h8
  all_goals simp at hd
  · rcases hd with rfl | rfl <;> exact ⟨by omega, validScalar_small _ (by omega)⟩
  · rcases hd with rfl | rfl <;> exact ⟨by omega, validScalar_small _ (by omega)⟩
  · rcases hd with rfl | rfl <;> exact ⟨by omega, validScalar_small _ (by omega)⟩
  · rcases hd with rfl | rfl <;> exact ⟨by omega, validScalar_small _ (by omega)⟩
  · rcases hd with rfl | rfl <;> exact ⟨by omega, validScalar_small _ (by omega)⟩
  · rcases hd with rfl | rfl <;> exact ⟨by omega, validScalar_small _ (by omega)⟩
  · rcases hd with rfl | rfl <;> exact ⟨by omega, validScalar_small _ (by omega)⟩
  · rcases hd with rfl | rfl | rfl | rfl | rfl
    · exact ⟨by omega, validScalar_small _ (by omega)⟩
    · exact ⟨by omega, validScalar_small _ (by omega)⟩
    · exact ⟨by omega, validScalar_small _ (by omega)⟩
    · have := hdig (c / 16) (by omega)
      exact ⟨by omega, validScalar_small _ (by omega)⟩
    · have := hdig (c % 16) (by omega)
      exact ⟨by omega, validScalar_small _ (by omega)⟩
  · subst hd
    exact ⟨by omega, h⟩

theorem escString_good (s : List Nat) (h : s.all validScalar = true) :
    ∀ d ∈ escString s, 32 ≤ d ∧ validScalar d = true := by
  intro d hd
  simp [escString] at hd
  obtain ⟨c, hc, hdc⟩ := hd
  simp [List.all_eq_true] at h
  exact escChar_good c (h c hc) d hdc

theorem intNumeral_good (i : Int) : ∀ d ∈ intNumeral i, 32 ≤ d ∧ validScalar d = true := by
  intro d hd
  cases i with
  | ofNat n =>
    have := natNumeral_digits n d hd
    exact ⟨by omega, validScalar_small _ (by omega)⟩
  | negSucc m =>
    simp only [intNumeral, List.mem_cons] at hd
    rcases hd with rfl | hd
    · exact ⟨by omega, validScalar_small _ (by omega)⟩
    · have := natNumeral_digits (m + 1) d hd
      exact ⟨by omega, validScalar_small _ (by omega)⟩

theorem mem_strLit (k : List Nat) (c : Nat) (hc : c ∈ strLit k) : c = 34 ∨ c ∈ escString k := by
  simp only [strLit, List.mem_cons, List.mem_append, List.mem_singleton] at hc
  tauto

theorem mem_itemsStr : ∀ xs c, c ∈ itemsStr xs → c = 44 ∨ ∃ x ∈ xs, c ∈ jsonStringify x := by
  intro xs
  induction xs with
  | nil => intro c hc; simp [itemsStr] at hc
  | cons x xs ih =>
    intro c hc
    cases xs with
    | nil =>
      right
      exact ⟨x, by simp, by simpa [itemsStr] using hc⟩
    | cons y ys =>
      rw [show itemsStr (x :: y :: ys) = jsonStringify x ++ 44 :: itemsStr (y :: ys) from by
        simp [itemsStr]] at hc
      rw [List.mem_append, List.mem_cons] at hc
      rcases hc with hc | rfl | hc
      · exact Or.inr ⟨x, by simp, hc⟩
      · exact Or.inl rfl
      · rcases ih c hc with h44 | ⟨z, hz, hcz⟩
        · exact Or.inl h44
        · exact Or.inr ⟨z, by simp [hz], hcz⟩

theorem mem_membersStr : ∀ ms c, c ∈ membersStr ms →
    c = 44 ∨ c = 58 ∨ c = 34 ∨
      ∃ k v, (k, v) ∈ ms ∧ (c ∈ escString k ∨ c ∈ jsonStringify v) := by
  intro ms
  induction ms with
  | nil => intro c hc; simp [membersStr] at hc
  | cons m ms ih =>
    intro c hc
    obtain ⟨k, v⟩ := m
    cases ms with
    | nil =>
      rw [show membersStr [(k, v)] = strLit k ++ 58 :: jsonStringify v from by
        simp [membersStr]] at hc
      rw [List.mem_append, List.mem_cons] at hc
      rcases hc with hc | rfl | hc
      · rcases mem_strLit k c hc with rfl | hce
        · exact Or.inr (Or.inr (Or.inl rfl))
        · exact Or.inr (Or.inr (Or.inr ⟨k, v, by simp, Or.inl hce⟩))
      · exact Or.inr (Or.inl rfl)
      · exact Or.inr (Or.inr (Or.inr ⟨k, v, by simp, Or.inr hc⟩))
    | cons m2 ms2 =>
      rw [show membersStr ((k, v) :: m2 :: ms2) =
          strLit k ++ 58 :: (jsonStringify v ++ 44 :: membersStr (m2 :: ms2)) from by
        simp [membersStr]] at hc
      rw [List.mem_append, List.mem_cons, List.mem_append, List.mem_cons] at hc
      rcases hc with hc | rfl | hc | rfl | hc
      · rcases mem_strLit k c hc with rfl | hce
        · exact Or.inr (Or.inr (Or.inl rfl))
        · exact Or.inr (Or.inr (Or.inr ⟨k, v, by simp, Or.inl hce⟩))
      · exact Or.inr (Or.inl rfl)
      · exact Or.inr (Or.inr (Or.inr ⟨k, v, by simp, Or.inr hc⟩))
      · exact Or.inl rfl
      · rcases ih c hc with h | h | h | ⟨k2, v2, hm, hcc⟩
        · exact Or.inl h
        · exact Or.inr (Or.inl h)
        · exact Or.inr (Or.inr (Or.inl h))
        · exact Or.inr (Or.inr (Or.inr ⟨k2, v2, by simp [hm], hcc⟩))

theorem stringify_good : ∀ n v, sizeOf v ≤ n → jsonValidB v = true →
    ∀ c ∈ jsonStringify v, 32 ≤ c ∧ validScalar c = true := by
  intro n
  induction n using Nat.strong_induction_on with
  | _ n ih =>
    intro v hsz hv c hc
    cases v with
    | null =>
      simp [jsonStringify] at hc
      rcases hc with rfl | rfl | rfl | rfl <;> exact ⟨by omega, validScalar_small _ (by omega)⟩
    | bool b =>
      cases b <;> simp [jsonStringify] at hc
      · rcases hc with rfl | rfl | rfl | rfl | rfl <;>
          exact ⟨by omega, validScalar_small _ (by omega)⟩
      · rcases hc with rfl | rfl | rfl | rfl <;>
          exact ⟨by omega, validScalar_small _ (by omega)⟩
    | num i =>
      rw [show jsonStringify (Json.num i) = intNumeral i from by simp [jsonStringify]] at hc
      exact intNumeral_good i c hc
    | str s =>
      rw [show jsonStringify (Json.str s) = strLit s from by simp [jsonStringify]] at hc
      rcases mem_strLit s c hc with rfl | hce
      · exact ⟨by omega, validScalar_small _ (by omega)⟩
      · exact escString_good s (by simpa [jsonValidB] using hv) c hce
    | arr xs =>
      rw [show jsonStringify (Json.arr xs) = 91 :: (itemsStr xs ++ [93]) from by
        simp [jsonStringify]] at hc
      rw [List.mem_cons, List.mem_append, List.mem_singleton] at hc
      rcases hc with rfl | hc | rfl
      · exact ⟨by omega, validScalar_small _ (by omega)⟩
      · rcases mem_itemsStr xs c hc with rfl | ⟨x, hx, hcx⟩
        · exact ⟨by omega, validScalar_small _ (by omega)⟩
        · have hlt : sizeOf x < sizeOf (Json.arr xs) := by
            have h1 : sizeOf x < sizeOf xs := List.sizeOf_lt_of_mem hx
            have h2 : sizeOf (Json.arr xs) = 1 + sizeOf xs := by simp
            omega
          have hvx : jsonValidB x = true :=
            jsonValidArr_mem xs (by simpa [jsonValidB] using hv) x hx
          exact ih (sizeOf x) (by omega) x (le_refl _) hvx c hcx
      · exact ⟨by omega, validScalar_small _ (by omega)⟩
    | obj ms =>
      rw [show jsonStringify (Json.obj ms) = 123 :: (membersStr ms ++ [125]) from by
        simp [jsonStringify]] at hc
      rw [List.mem_cons, List.mem_append, List.mem_singleton] at hc
      rcases hc with rfl | hc | rfl
      · exact ⟨by omega, validScalar_small _ (by omega)⟩
      · rcases mem_membersStr ms c hc with rfl | rfl | rfl | ⟨k, v, hm, hcc⟩
        · exact ⟨by omega, validScalar_small _ (by omega)⟩
        · exact ⟨by omega, validScalar_small _ (by omega)⟩
        · exact ⟨by omega, validScalar_small _ (by omega)⟩
        · have hkv := jsonValidObj_mem ms (by simpa [jsonValidB] using hv) k v hm
          rcases hcc with hck | hcv
          · exact escString_good k hkv.1 c hck
          · have hlt : sizeOf v < sizeOf (Json.obj ms) := by
              have h1 : sizeOf (k, v) < sizeOf ms := List.sizeOf_lt_of_mem hm
              have h2 : sizeOf (Json.obj ms) = 1 + sizeOf ms := by simp
              have h3 : sizeOf (k, v) = 1 + sizeOf k + sizeOf v := by simp
              have h4 : 0 < sizeOf k := by
                cases k <;> simp <;> omega
              omega
            exact ih (sizeOf v) (by omega) v (le_refl _) hkv.2 c hcv
      · exact ⟨by omega, validScalar_small _ (by omega)⟩

/-! ## The transform pipeline (`createTransformPipeline`) and the C1
round-trip law -/

/-- `createTransformPipeline(...).serialize` with the default JSON
serializer: stringify, then compress when enabled and at or above the
threshold, then obfuscate when enabled. -/
def pipelineSerialize (shouldCompress : Bool) (threshold : Nat) (encrypt : Bool)
    (v : Json) : List Nat :=
  let r := jsonStringify v
  let r := if shouldCompress = true ∧ threshold ≤ r.length then simpleCompress r else r
  if encrypt then base64Encode r else r

/-- `createTransformPipeline(...).deserialize` with the default JSON
parser: de-obfuscate, decompress, parse; any failure yields `none`. -/
def pipelineDeserialize (shouldCompress encrypt : Bool) (s : List Nat) : Option Json :=
  let s1 := if encrypt then base64Decode s else s
  match (if shouldCompress then simpleDecompress s1 else some s1) with
  | some s2 => jsonParse s2
  | none => none

theorem rleBody_chars : ∀ rest prev count, count ≤ 255 →
    ∀ c ∈ rleBody prev count rest, c ≤ 255 ∨ c ∈ prev :: rest := by
  intro rest
  induction rest with
  | nil =>
    intro prev count hcount c hc
    simp only [rleBody, encodeGroup] at hc
    split at hc
    · simp at hc
      rcases hc with rfl | rfl | rfl
      · exact Or.inl (by omega)
      · exact Or.inl hcount
      · exact Or.inr (by simp)
    · have := List.eq_of_mem_replicate hc
      exact Or.inr (by simp [this])
  | cons c0 rest ih =>
    intro prev count hcount c hc
    simp only [rleBody] at hc
    split at hc
    · rename_i hcond
      rcases ih prev (count + 1) (by omega) c hc with h | h
      · exact Or.inl h
      · rw [List.mem_cons] at h
        rcases h with rfl | h
        · exact Or.inr (by simp)
        · exact Or.inr (by simp [h])
    · rw [List.mem_append] at hc
      rcases hc with hc | hc
      · simp only [encodeGroup] at hc
        split at hc
        · simp at hc
          rcases hc with rfl | rfl | rfl
          · exact Or.inl (by omega)
          · exact Or.inl hcount
          · exact Or.inr (by simp)
        · have := List.eq_of_mem_replicate hc
          exact Or.inr (by simp [this])
      · rcases ih c0 1 (by omega) c hc with h | h
        · exact Or.inl h
        · rw [List.mem_cons] at h
          rcases h with rfl | h
          · exact Or.inr (by simp)
          · exact Or.inr (by simp [h])

theorem simpleCompress_chars (s : List Nat) (h : ∀ c ∈ s, validScalar c = true) :
    ∀ c ∈ simpleCompress s, validScalar c = true := by
  intro c hc
  unfold simpleCompress at hc
  split at hc
  · exact h c hc
  · cases s with
    | nil => simp at hc
    | cons c0 rest =>
      simp only [] at hc
      split at hc
      · rw [List.mem_cons] at hc
        rcases hc with rfl | hc
        · exact validScalar_small _ (by omega)
        · rcases rleBody_chars rest c0 1 (by omega) c hc with hsmall | hmem
          · exact validScalar_small _ (by omega)
          · exact h c hmem
      · exact h c hc

/-- **C1.** For every JSON-representable value and every
compression/obfuscation combination of the pipeline with the default
JSON serializer, `deserialize (serialize x)` returns `x`. -/
theorem transform_round_trip (v : Json) (shouldCompress encrypt : Bool) (threshold : Nat)
    (hv : jsonValidB v = true) :
    pipelineDeserialize shouldCompress encrypt (pipelineSerialize shouldCompress threshold encrypt v) =
      some v := by
  have hgood := stringify_good (sizeOf v) v (le_refl _) hv
  have hvalid : ∀ c ∈ jsonStringify v, validScalar c = true := fun c hc => (hgood c hc).2
  by_cases hcmp : shouldCompress = true ∧ threshold ≤ (jsonStringify v).length
  · have hser : pipelineSerialize shouldCompress threshold encrypt v =
        (if encrypt then base64Encode (simpleCompress (jsonStringify v))
         else simpleCompress (jsonStringify v)) := by
      simp only [pipelineSerialize, if_pos hcmp]
    have huval : ∀ c ∈ simpleCompress (jsonStringify v), validScalar c = true :=
      simpleCompress_chars _ hvalid
    have hdecomp : simpleDecompress (simpleCompress (jsonStringify v)) =
        some (jsonStringify v) :=
      simpleDecompress_simpleCompress _
        (fun c hc => by have := (hgood c hc).1; exact ⟨by omega, by omega⟩)
    rw [hser]
    cases encrypt
    · simp [pipelineDeserialize, hcmp.1, hdecomp, jsonParse_stringify]
    · simp [pipelineDeserialize, hcmp.1, base64_round_trip _ huval, hdecomp, jsonParse_stringify]
  · have hser : pipelineSerialize shouldCompress threshold encrypt v =
        (if encrypt then base64Encode (jsonStringify v) else jsonStringify v) := by
      simp only [pipelineSerialize, if_neg hcmp]
    have hpass : simpleDecompress (jsonStringify v) = some (jsonStringify v) := by
      apply simpleDecompress_pass
      cases hs : jsonStringify v with
      | nil => trivial
      | cons c t =>
        have := (hgood c (by rw [hs]; simp)).1
        simp [headFails]
        omega
    rw [hser]
    cases encrypt
    · cases shouldCompress <;> simp [pipelineDeserialize, hpass, jsonParse_stringify]
    · cases shouldCompress <;>
        simp [pipelineDeserialize, hpass, base64_round_trip _ hvalid, jsonParse_stringify]

/-- Witness for the C1 round-trip theorem at a concrete value, with
compression and obfuscation both enabled (threshold 0 forces the
compression branch). -/
theorem transform_round_trip_witness :
    jsonValidB (Json.obj [(jstr "name", Json.str (jstr "Jo")), (jstr "n", Json.num (-7))]) = true ∧
      pipelineDeserialize true true
        (pipelineSerialize true 0 true
          (Json.obj [(jstr "name", Json.str (jstr "Jo")), (jstr "n", Json.num (-7))])) =
        some (Json.obj [(jstr "name", Json.str (jstr "Jo")), (jstr "n", Json.num (-7))]) :=
  ⟨by decide, transform_round_trip _ true true 0 (by decide)⟩

/-! ## Merge engine (`merge.ts`)

JavaScript objects are modelled as the ordered key/value lists of
`Json.obj`. Property assignment (`result[key] = v`) updates the first
occurrence in place or appends; object spread folds assignments. A
value is a "plain object" exactly when it is `Json.obj`. -/

/-- Key lookup in an object's property list. -/
def jlookup : List (List Nat × Json) → List Nat → Option Json
  | [], _ => none
  | (k, v) :: rest, key => if k = key then some v else jlookup rest key

/-- JavaScript property assignment on an ordered property list. -/
def objSet : List (List Nat × Json) → List Nat → Json → List (List Nat × Json)
  | [], key, v => [(key, v)]
  | (k, w) :: rest, key, v =>
    if k = key then (key, v) :: rest else (k, w) :: objSet rest key v

/-- Object spread `{...a, ...b}` on property lists: assign every
property of `b` over a copy of `a`. -/
def objSpread (a b : List (List Nat × Json)) : List (List Nat × Json) :=
  b.foldl (fun acc kv => objSet acc kv.1 kv.2) a

/-- `isPlainObject` on the modelled value domain. -/
def isPlainObjectJ : Json → Bool
  | .obj _ => true
  | _ => false

/-- The JavaScript `null` test used by the `?? ` fallbacks. -/
def isNullJ : Json → Bool
  | .null => true
  | _ => false

/-- Own enumerable properties produced by spreading a value: objects
spread their properties, arrays and strings spread index properties,
primitives spread nothing. -/
def spreadProps : Json → List (List Nat × Json)
  | .obj kvs => kvs
  | .arr xs => (List.range xs.length).zip xs |>.map (fun p => (natNumeral p.1, p.2))
  | .str s => (List.range s.length).zip s |>.map (fun p => (natNumeral p.1, Json.str [p.2]))
  | _ => []

/-- Model of `shallowMerge`: `{...initial, ...stored}` when `initial`
is a plain object, else `stored ?? initial`. -/
def shallowMergeJ (stored initial : Json) : Json :=
  match initial with
  | .obj ikvs => .obj (objSpread ikvs (spreadProps stored))
  | _ => if isNullJ stored then initial else stored

/-- The three prototype-pollution keys skipped by `deepMerge`. -/
def dangerousKey (k : List Nat) : Bool :=
  k = jstr "__proto__" || k = jstr "constructor" || k = jstr "prototype"

mutual

/-- Model of `deepMerge`: recursive per-key merge of plain objects,
`stored ?? initial` otherwise. -/
def deepMergeJ : Json → Json → Json
  | .obj skvs, .obj ikvs => .obj (deepMergeKVs skvs ikvs ikvs)
  | stored, initial => if isNullJ stored then initial else stored

/-- The key loop of `deepMerge`: walk `stored`'s properties, skipping
dangerous keys, recursing when both sides hold plain objects and
assigning the stored value otherwise.  Arguments: remaining stored
properties, `initial`'s properties (for lookups), accumulated result
(started as a copy of `initial`). -/
def deepMergeKVs : List (List Nat × Json) → List (List Nat × Json) →
    List (List Nat × Json) → List (List Nat × Json)
  | [], _, acc => acc
  | (k, v) :: rest, ikvs, acc =>
    if dangerousKey k then deepMergeKVs rest ikvs acc
    else
      match v, jlookup ikvs k with
      | .obj svs, some (.obj ivs) =>
        deepMergeKVs rest ikvs (objSet acc k (.obj (deepMergeKVs svs ivs ivs)))
      | v, _ => deepMergeKVs rest ikvs (objSet acc k v)

end

/-- Is a value "empty" per `isEmpty` (null, empty string, empty array,
empty plain object)?  The `undefined` case is the absent-key case of
`preferInitialMerge` and is handled at the call site. -/
def isEmptyJ : Json → Bool
  | .null => true
  | .str [] => true
  | .arr [] => true
  | .obj [] => true
  | _ => false

/-- Model of `preferStoredMerge`: union of keys, stored value winning
whenever stored defines the key. -/
def preferStoredMergeJ (stored initial : Json) : Json :=
  match initial with
  | .obj ikvs =>
    match stored with
    | .obj skvs =>
      .obj ((ikvs.map (fun kv => (kv.1, (jlookup skvs kv.1).getD kv.2))) ++
        skvs.filter (fun kv => (jlookup ikvs kv.1).isNone))
    | _ => .obj ikvs
  | _ => if isNullJ stored then initial else stored

/-- Model of `preferInitialMerge`: keep initial, overwrite only keys
whose initial value is empty (or absent) with the stored value. -/
def preferInitialMergeJ (stored initial : Json) : Json :=
  match initial with
  | .obj ikvs =>
    match stored with
    | .obj skvs =>
      .obj (skvs.foldl
        (fun acc kv =>
          if (jlookup ikvs kv.1).elim true isEmptyJ then objSet acc kv.1 kv.2 else acc)
        ikvs)
    | _ => .obj ikvs
  | _ => initial

/-! ## C8: shallow merge lookup characterization -/

theorem jlookup_objSet (l : List (List Nat × Json)) (k : List Nat) (v : Json) (key : List Nat) :
    jlookup (objSet l k v) key = if k = key then some v else jlookup l key := by
  induction l with
  | nil =>
    by_cases h : k = key <;> simp [objSet, jlookup, h]
  | cons kv rest ih =>
    obtain ⟨k0, v0⟩ := kv
    by_cases h0 : k0 = k
    · subst h0
      by_cases h : k0 = key <;> simp [objSet, jlookup, h]
    · by_cases h : k0 = key
      · subst h
        have hk : ¬ k = k0 := fun hk => h0 hk.symm
        simp [objSet, h0, jlookup, hk]
      · simp [objSet, h0, jlookup, h, ih]

theorem jlookup_none_of_not_mem (l : List (List Nat × Json)) (key : List Nat)
    (h : key ∉ l.map Prod.fst) : jlookup l key = none := by
  induction l with
  | nil => rfl
  | cons kv rest ih =>
    obtain ⟨k0, v0⟩ := kv
    simp only [List.map_cons, List.mem_cons] at h
    push_neg at h
    have h1 : ¬ k0 = key := fun he => h.1 he.symm
    simp [jlookup, h1, ih h.2]

theorem jlookup_objSpread (b : List (List Nat × Json)) :
    ∀ a, (b.map Prod.fst).Nodup → ∀ key,
      jlookup (objSpread a b) key =
        match jlookup b key with
        | some v => some v
        | none => jlookup a key := by
  induction b with
  | nil => intro a _ key; simp [objSpread, jlookup]
  | cons kv b ih =>
    intro a hnodup key
    obtain ⟨k, v⟩ := kv
    have hspread : objSpread a ((k, v) :: b) = objSpread (objSet a k v) b := by
      simp [objSpread]
    rw [hspread]
    simp only [List.map_cons, List.nodup_cons] at hnodup
    rw [ih (objSet a k v) hnodup.2 key]
    by_cases hk : k = key
    · subst hk
      rw [jlookup_none_of_not_mem b k hnodup.1]
      simp [jlookup, jlookup_objSet]
    · simp only [jlookup, if_neg hk]
      cases hb : jlookup b key with
      | some w => simp
      | none => simp [jlookup_objSet, hk]

/-- **C8.** `shallowMerge` merges one level only: the result is the
spread `{...initial, ...stored}`, so every top-level key of `stored`
takes `stored`'s value wholesale (nested objects replace `initial`'s
entirely) and keys absent from `stored` keep `initial`'s value. -/
theorem shallowMerge_spec (skvs ikvs : List (List Nat × Json))
    (hnodup : (skvs.map Prod.fst).Nodup) :
    shallowMergeJ (Json.obj skvs) (Json.obj ikvs) = Json.obj (objSpread ikvs skvs) ∧
      ∀ key, jlookup (objSpread ikvs skvs) key =
        match jlookup skvs key with
        | some v => some v
        | none => jlookup ikvs key :=
  ⟨rfl, jlookup_objSpread skvs ikvs hnodup⟩

/-- Witness for C8 on the documented data-loss example: stored
`{name:"John", address:{city:"NYC"}}` over initial
`{name:"", email:"", address:{city:"", zip:""}}` yields an `address`
equal to stored's whole nested object, dropping `zip`. -/
theorem shallowMerge_spec_witness :
    ((([(jstr "name", Json.str (jstr "John")),
        (jstr "address", Json.obj [(jstr "city", Json.str (jstr "NYC"))])] :
          List (List Nat × Json)).map Prod.fst).Nodup ∧
      jlookup
        (objSpread
          [(jstr "name", Json.str []), (jstr "email", Json.str []),
            (jstr "address", Json.obj [(jstr "city", Json.str []), (jstr "zip", Json.str [])])]
          [(jstr "name", Json.str (jstr "John")),
            (jstr "address", Json.obj [(jstr "city", Json.str (jstr "NYC"))])])
        (jstr "address") =
        match
          jlookup
            [(jstr "name", Json.str (jstr "John")),
              (jstr "address", Json.obj [(jstr "city", Json.str (jstr "NYC"))])]
            (jstr "address") with
        | some v => some v
        | none =>
          jlookup
            [(jstr "name", Json.str []), (jstr "email", Json.str []),
              (jstr "address", Json.obj [(jstr "city", Json.str []), (jstr "zip", Json.str [])])]
            (jstr "address")) :=
  ⟨by decide, (shallowMerge_spec _ _ (by decide)).2 (jstr "address")⟩

/-! ## C4: prototype-pollution keys in `deepMerge` -/

mutual

/-- No dangerous key (`__proto__`, `constructor`, `prototype`) occurs
anywhere in the value. -/
def cleanJson : Json → Bool
  | .obj kvs => cleanKVs kvs
  | .arr xs => cleanArr xs
  | _ => true

/-- Cleanliness of every array element. -/
def cleanArr : List Json → Bool
  | [] => true
  | x :: xs => cleanJson x && cleanArr xs

/-- Cleanliness of every key and value of an object. -/
def cleanKVs : List (List Nat × Json) → Bool
  | [] => true
  | (k, v) :: ms => (!dangerousKey k && cleanJson v) && cleanKVs ms

end

/-- `stored` is merge-compatible with `initial`: wherever `stored`
holds a plain object under a non-dangerous key, `initial` holds a
compatible plain object at the same key (so `deepMerge` actually
recurses instead of adopting the subtree wholesale), and every
non-object stored value adopted verbatim is itself clean. -/
def compatKVs : List (List Nat × Json) → List (List Nat × Json) → Bool
  | [], _ => true
  | (k, v) :: rest, ikvs =>
    (if dangerousKey k then true
     else
       match v, jlookup ikvs k with
       | .obj svs, some (.obj ivs) => compatKVs svs ivs
       | .obj _, _ => false
       | v, _ => cleanJson v) &&
      compatKVs rest ikvs

theorem jlookup_clean (l : List (List Nat × Json)) (key : List Nat) (v : Json)
    (hl : cleanKVs l = true) (hv : jlookup l key = some v) : cleanJson v = true := by
  induction l with
  | nil => simp [jlookup] at hv
  | cons kv rest ih =>
    obtain ⟨k0, v0⟩ := kv
    simp only [cleanKVs, Bool.and_eq_true] at hl
    simp only [jlookup] at hv
    split at hv
    · cases hv
      exact hl.1.2
    · exact ih hl.2 hv

theorem cleanKVs_objSet (acc : List (List Nat × Json)) (k : List Nat) (v : Json)
    (hacc : cleanKVs acc = true) (hk : dangerousKey k = false) (hv : cleanJson v = true) :
    cleanKVs (objSet acc k v) = true := by
  induction acc with
  | nil => simp [objSet, cleanKVs, hk, hv]
  | cons kv rest ih =>
    obtain ⟨k0, v0⟩ := kv
    simp only [cleanKVs, Bool.and_eq_true] at hacc
    simp only [objSet]
    split
    · simp [cleanKVs, hk, hv, hacc.2]
    · simp only [cleanKVs, Bool.and_eq_true]
      exact ⟨hacc.1, ih hacc.2⟩

theorem deepMergeKVs_clean :
    ∀ n skvs ikvs acc, sizeOf skvs ≤ n → compatKVs skvs ikvs = true →
      cleanKVs ikvs = true → cleanKVs acc = true →
      cleanKVs (deepMergeKVs skvs ikvs acc) = true := by
  intro n
  induction n using Nat.strong_induction_on with
  | _ n ih =>
    intro skvs ikvs acc hsz hcompat hinit hacc
    match skvs with
    | [] => simpa [deepMergeKVs] using hacc
    | (k, v) :: rest =>
      have hszrest : sizeOf rest < sizeOf ((k, v) :: rest) := by
        simp
      unfold compatKVs at hcompat
      rw [Bool.and_eq_true] at hcompat
      by_cases hdk : dangerousKey k = true
      · have hred : deepMergeKVs ((k, v) :: rest) ikvs acc = deepMergeKVs rest ikvs acc := by
          cases v with
          | obj svs =>
            cases hlk : jlookup ikvs k with
            | none => simp [deepMergeKVs, hdk, hlk]
            | some w => cases w <;> simp [deepMergeKVs, hdk, hlk]
          | null => simp [deepMergeKVs, hdk]
          | bool b => simp [deepMergeKVs, hdk]
          | num i => simp [deepMergeKVs, hdk]
          | str s => simp [deepMergeKVs, hdk]
          | arr xs => simp [deepMergeKVs, hdk]
        rw [hred]
        exact ih (n - 1) (by omega) rest ikvs acc (by omega) hcompat.2 hinit hacc
      · have hdk' : dangerousKey k = false := by simp at hdk; exact hdk
        have hg := hcompat.1
        rw [if_neg (by simp [hdk'])] at hg
        cases v with
        | obj svs =>
          cases hlk : jlookup ikvs k with
          | some w =>
            cases w with
            | obj ivs =>
              rw [hlk] at hg
              have hivs : cleanKVs ivs = true := by
                have := jlookup_clean ikvs k (.obj ivs) hinit hlk
                simpa [cleanJson] using this
              have hsvs : sizeOf svs < sizeOf ((k, Json.obj svs) :: rest) := by
                simp
                omega
              have hinner : cleanKVs (deepMergeKVs svs ivs ivs) = true :=
                ih (sizeOf svs) (by omega) svs ivs ivs (le_refl _) hg hivs hivs
              rw [show deepMergeKVs ((k, Json.obj svs) :: rest) ikvs acc =
                  deepMergeKVs rest ikvs
                    (objSet acc k (.obj (deepMergeKVs svs ivs ivs))) from by
                simp [deepMergeKVs, hdk', hlk]]
              refine ih (n - 1) (by omega) rest ikvs _ (by omega) hcompat.2 hinit ?_
              exact cleanKVs_objSet acc k _ hacc hdk' (by simpa [cleanJson] using hinner)
            | null => rw [hlk] at hg; simp at hg
            | bool b => rw [hlk] at hg; simp at hg
            | num i => rw [hlk] at hg; simp at hg
            | str s => rw [hlk] at hg; simp at hg
            | arr xs => rw [hlk] at hg; simp at hg
          | none => rw [hlk] at hg; simp at hg
        | null =>
          rw [show deepMergeKVs ((k, Json.null) :: rest) ikvs acc =
              deepMergeKVs rest ikvs (objSet acc k Json.null) from by
            simp [deepMergeKVs, hdk']]
          refine ih (n - 1) (by omega) rest ikvs _ (by omega) hcompat.2 hinit ?_
          exact cleanKVs_objSet acc k _ hacc hdk' (by simp [cleanJson])
        | bool b =>
          rw [show deepMergeKVs ((k, Json.bool b) :: rest) ikvs acc =
              deepMergeKVs rest ikvs (objSet acc k (Json.bool b)) from by
            simp [deepMergeKVs, hdk']]
          refine ih (n - 1) (by omega) rest ikvs _ (by omega) hcompat.2 hinit ?_
          exact cleanKVs_objSet acc k _ hacc hdk' (by simp [cleanJson])
        | num i =>
          rw [show deepMergeKVs ((k, Json.num i) :: rest) ikvs acc =
              deepMergeKVs rest ikvs (objSet acc k (Json.num i)) from by
            simp [deepMergeKVs, hdk']]
          refine ih (n - 1) (by omega) rest ikvs _ (by omega) hcompat.2 hinit ?_
          exact cleanKVs_objSet acc k _ hacc hdk' (by simp [cleanJson])
        | str s =>
          rw [show deepMergeKVs ((k, Json.str s) :: rest) ikvs acc =
              deepMergeKVs rest ikvs (objSet acc k (Json.str s)) from by
            simp [deepMergeKVs, hdk']]
          refine ih (n - 1) (by omega) rest ikvs _ (by omega) hcompat.2 hinit ?_
          exact cleanKVs_objSet acc k _ hacc hdk' (by simp [cleanJson])
        | arr xs =>
          have hgx : cleanJson (Json.arr xs) = true := hg
          rw [show deepMergeKVs ((k, Json.arr xs) :: rest) ikvs acc =
              deepMergeKVs rest ikvs (objSet acc k (Json.arr xs)) from by
            simp [deepMergeKVs, hdk']]
          refine ih (n - 1) (by omega) rest ikvs _ (by omega) hcompat.2 hinit ?_
          exact cleanKVs_objSet acc k _ hacc hdk' hgx

/-- **C4 counterexample.** `deepMerge({a: {__proto__: 1}}, {})` adopts
the stored subtree verbatim (the initial side holds no plain object at
`a`), so the result carries `__proto__` at depth two — refuting the
claim that the three keys are never copied into the result at any
level of the recursion, even though the initial state is clean. -/
theorem deepMerge_pollution_cex :
    cleanJson (Json.obj ([] : List (List Nat × Json))) = true ∧
      cleanJson (deepMergeJ
        (Json.obj [(jstr "a", Json.obj [(jstr "__proto__", Json.num 1)])])
        (Json.obj [])) = false := by
  constructor
  · simp +decide [cleanJson, cleanKVs]
  · simp +decide [deepMergeJ, deepMergeKVs, jlookup, objSet, cleanJson, cleanKVs, cleanArr,
      dangerousKey]

/-- **C4 (amended).** The key loop of `deepMerge` always skips
`__proto__`/`constructor`/`prototype` from `stored`; consequently, when
`initial` is free of those keys and every plain-object value of
`stored` is merged against a matching plain object of `initial` (no
wholesale subtree adoption, with adopted non-object leaves clean), the
merged result is free of the three keys at every level. -/
theorem deepMerge_no_dangerous (skvs ikvs : List (List Nat × Json))
    (hcompat : compatKVs skvs ikvs = true) (hinit : cleanJson (Json.obj ikvs) = true) :
    cleanJson (deepMergeJ (Json.obj skvs) (Json.obj ikvs)) = true := by
  have h1 : deepMergeJ (Json.obj skvs) (Json.obj ikvs) =
      .obj (deepMergeKVs skvs ikvs ikvs) := by
    simp [deepMergeJ]
  rw [h1]
  have hi : cleanKVs ikvs = true := by simpa [cleanJson] using hinit
  simpa [cleanJson] using
    deepMergeKVs_clean (sizeOf skvs) skvs ikvs ikvs (le_refl _) hcompat hi hi

/-- Witness for the amended C4 theorem on a concrete compatible pair. -/
theorem deepMerge_no_dangerous_witness :
    compatKVs [(jstr "a", Json.num 1), (jstr "b", Json.obj [(jstr "c", Json.num 2)])]
        [(jstr "b", Json.obj [(jstr "d", Json.num 3)])] = true ∧
      cleanJson (Json.obj [(jstr "b", Json.obj [(jstr "d", Json.num 3)])]) = true ∧
      cleanJson (deepMergeJ
        (Json.obj [(jstr "a", Json.num 1), (jstr "b", Json.obj [(jstr "c", Json.num 2)])])
        (Json.obj [(jstr "b", Json.obj [(jstr "d", Json.num 3)])])) = true :=
  ⟨by simp +decide [compatKVs, jlookup, cleanJson, cleanKVs, dangerousKey],
    by simp +decide [cleanJson, cleanKVs, dangerousKey],
    deepMerge_no_dangerous _ _
      (by simp +decide [compatKVs, jlookup, cleanJson, cleanKVs, dangerousKey])
      (by simp +decide [cleanJson, cleanKVs, dangerousKey])⟩

/-! ## Validation, migration and error classification (`validate.ts`) -/

/-- The `PersistError` union of `types.ts`. -/
inductive PersistError where
  | STORAGE_FULL
  | QUOTA_EXCEEDED
  | CORRUPTED_DATA
  | PARSE_ERROR
  | VALIDATION_FAILED
  | MIGRATION_FAILED
  | UNKNOWN
deriving DecidableEq

/-- JavaScript truthiness on the modelled value domain. -/
def truthyJson : Json → Bool
  | .null => false
  | .bool b => b
  | .num n => decide (n ≠ 0)
  | .str s => !s.isEmpty
  | .arr _ => true
  | .obj _ => true

/-- Model of `isValidPersistedData`: an object carrying a `data` key
and numeric `timestamp` and `version`. -/
def isValidPersistedDataJ : Json → Bool
  | .obj kvs =>
    (jlookup kvs (jstr "data")).isSome &&
      (match jlookup kvs (jstr "timestamp") with
       | some (.num _) => true
       | _ => false) &&
      (match jlookup kvs (jstr "version") with
       | some (.num _) => true
       | _ => false)
  | _ => false

/-- The `data` field of a stored envelope. -/
def envData : Json → Json
  | .obj kvs => (jlookup kvs (jstr "data")).getD Json.null
  | _ => Json.null

/-- The numeric `version` field of a stored envelope. -/
def envVersion : Json → Int
  | .obj kvs =>
    match jlookup kvs (jstr "version") with
    | some (.num n) => n
    | _ => 0
  | _ => 0

/-- The numeric `timestamp` field of a stored envelope. -/
def envTimestamp : Json → Int
  | .obj kvs =>
    match jlookup kvs (jstr "timestamp") with
    | some (.num n) => n
    | _ => 0
  | _ => 0

/-- The optional `expiresAt` field (declared `number | undefined` in
`PersistedData`). -/
def envExpiresAt : Json → Option Int
  | .obj kvs =>
    match jlookup kvs (jstr "expiresAt") with
    | some (.num n) => some n
    | _ => none
  | _ => none

/-- Model of `isExpired`: false when `expiresAt` is absent, else
`Date.now() > expiresAt` (`now` models the wall clock). -/
def isExpiredJ (now : Int) (env : Json) : Bool :=
  match envExpiresAt env with
  | none => false
  | some e => decide (e < now)

/-- Model of `needsMigration`. -/
def needsMigration (storedVersion currentVersion : Int) : Bool :=
  decide (storedVersion < currentVersion)

/-- Model of `migrateData`. A migrate function is `Json → Int →
Except Unit Json`, `.error` modelling a throw; the `null` returned on a
throw is the JSON `null` value (they are the same JavaScript value). -/
def migrateDataJ (data : Json) (storedVersion currentVersion : Int)
    (migrateFn : Option (Json → Int → Except Unit Json)) : Json :=
  if needsMigration storedVersion currentVersion = false then data
  else
    match migrateFn with
    | none => data
    | some f =>
      match f data storedVersion with
      | .ok r => r
      | .error _ => Json.null

/-- Model of `validateData`: `true` without a validator, the
validator's verdict otherwise, `false` when the validator throws. -/
def validateDataJ (data : Json) (validateFn : Option (Json → Except Unit Bool)) : Bool :=
  match validateFn with
  | none => true
  | some f =>
    match f data with
    | .ok b => b
    | .error _ => false

/-- A JavaScript `Error` as far as `detectErrorType` inspects it. -/
structure JsError where
  name : List Nat
  message : List Nat

/-- Does `sub` occur as a contiguous substring of `hay`? (the
`String.includes` of the source). -/
def containsSub (hay sub : List Nat) : Bool :=
  match hay with
  | [] => sub.isEmpty
  | _ :: rest => sub.isPrefixOf hay || containsSub rest sub

/-- ASCII lower-casing as performed by `toLowerCase` on the inspected
names and messages. -/
def lowerStr (s : List Nat) : List Nat :=
  s.map (fun c => if 65 ≤ c ∧ c ≤ 90 then c + 32 else c)

/-- Model of `detectErrorType`: substring-based classification of a
thrown error. -/
def detectErrorType (e : JsError) : PersistError :=
  let message := lowerStr e.message
  let nm := lowerStr e.name
  if nm = jstr "quotaexceedederror" || containsSub message (jstr "quota") ||
      containsSub message (jstr "storage full") ||
      containsSub message (jstr "exceeded the quota") then
    .QUOTA_EXCEEDED
  else if nm = jstr "syntaxerror" || containsSub message (jstr "json") ||
      containsSub message (jstr "parse") ||
      containsSub message (jstr "unexpected token") then
    .PARSE_ERROR
  else .UNKNOWN

/-- Model of `wrapWithMetadata`: the envelope written on save;
`expiresAt` is added only for a positive expiration (in minutes). -/
def wrapWithMetadata (data : Json) (now : Int) (version : Int) (expiration : Option Int) : Json :=
  Json.obj
    ([(jstr "data", data), (jstr "timestamp", Json.num now), (jstr "version", Json.num version)] ++
      (match expiration with
       | some e => if 0 < e then [(jstr "expiresAt", Json.num (now + e * 60 * 1000))] else []
       | none => []))

/-- Model of `filterExcludedFields`: drop the excluded own keys (the
hook's state type is an object, whose own properties are
`spreadProps`). -/
def filterExcludedFields (data : Json) (exclude : List (List Nat)) : Json :=
  if exclude.isEmpty then data
  else Json.obj ((spreadProps data).filter (fun kv => !(exclude.contains kv.1)))

/-! ## The orchestrator's load and save paths (`useFormPersist`) -/

/-- The four named merge strategies of `getMergeFunction` (a custom
merge function is passed through unchanged by the source and is not a
separate case here). -/
inductive MergeStrategy where
  | shallow
  | deep
  | preferStored
  | preferInitial

/-- Model of `getMergeFunction`. -/
def getMergeFunctionJ : MergeStrategy → Json → Json → Json
  | .shallow => shallowMergeJ
  | .deep => deepMergeJ
  | .preferStored => preferStoredMergeJ
  | .preferInitial => preferInitialMergeJ

/-- Observable outcome of the orchestrator's `loadFromStorage`:
resulting live state, whether `removeItem` ran, the errors reported via
`handleError` (i.e. `onError`), whether the restored flags/history were
set, the `onRestore` invocations, and the `lastSaved` value adopted. -/
structure LoadResult where
  state : Json
  removed : Bool
  errors : List PersistError
  restored : Bool
  onRestoreCalls : List Json
  lastSaved : Option Int

/-- Model of `useFormPersist`'s `loadFromStorage` (the load-on-mount
effect). `raw` is the adapter's answer (`none` = absent key; the empty
string is falsy and treated as absent, per `if (!raw)`). The pipeline
runs without obfuscation, as the hook always passes `encrypt = false`. -/
def loadFromStorage (now : Int) (raw : Option (List Nat)) (shouldCompress : Bool)
    (version : Int) (migrateFn : Option (Json → Int → Except Unit Json))
    (strategy : MergeStrategy) (initialState : Json) : LoadResult :=
  match raw with
  | none => ⟨initialState, false, [], false, [], none⟩
  | some s =>
    if s.isEmpty then ⟨initialState, false, [], false, [], none⟩
    else
      match pipelineDeserialize shouldCompress false s with
      | none => ⟨initialState, false, [.CORRUPTED_DATA], false, [], none⟩
      | some parsed =>
        if truthyJson parsed = false then
          ⟨initialState, false, [.CORRUPTED_DATA], false, [], none⟩
        else if isValidPersistedDataJ parsed = false then
          ⟨initialState, false, [.CORRUPTED_DATA], false, [], none⟩
        else if isExpiredJ now parsed then
          ⟨initialState, true, [], false, [], none⟩
        else
          let data := migrateDataJ (envData parsed) (envVersion parsed) version migrateFn
          if isNullJ data then
            ⟨initialState, false, [.MIGRATION_FAILED], false, [], none⟩
          else
            let merged := getMergeFunctionJ strategy data initialState
            ⟨merged, false, [], true, [merged], some (envTimestamp parsed)⟩

/-- The `beforePersist`-then-exclusion preprocessing of `saveToStorage`. -/
def processedData (beforePersist : Option (Json → Json)) (exclude : List (List Nat))
    (d : Json) : Json :=
  let p := match beforePersist with
    | some f => f d
    | none => d
  if exclude.isEmpty = false then filterExcludedFields p exclude else p

/-- Observable outcome of the orchestrator's `saveToStorage`: the
`setItem` calls that landed, the errors reported via `onError`, the
number of `onStorageFull` invocations, and whether the persisted
bookkeeping was updated. -/
structure SaveResult where
  writes : List (List Nat × List Nat)
  errors : List PersistError
  fullCalls : Nat
  persisted : Bool

/-- Model of `useFormPersist`'s `saveToStorage`. `setThrows` is the
error thrown by the storage adapter's `setItem`, if any (quota
exceeded and the like); the pipeline runs without obfuscation. -/
def saveToStorage (enabled isPaused : Bool) (beforePersist : Option (Json → Json))
    (exclude : List (List Nat)) (validateFn : Option (Json → Except Unit Bool))
    (version : Int) (expiration : Option Int) (shouldCompress : Bool) (now : Int)
    (fullKey : List Nat) (setThrows : Option JsError) (dataToSave : Json) : SaveResult :=
  if enabled = false ∨ isPaused = true then ⟨[], [], 0, false⟩
  else
    let processed := processedData beforePersist exclude dataToSave
    if validateDataJ processed validateFn = false then ⟨[], [], 0, false⟩
    else
      let wrapped := wrapWithMetadata processed now version expiration
      let serialized := pipelineSerialize shouldCompress DEFAULT_COMPRESSION_THRESHOLD false wrapped
      match setThrows with
      | none => ⟨[(fullKey, serialized)], [], 0, true⟩
      | some e =>
        let t := detectErrorType e
        ⟨[], [t], if t = .QUOTA_EXCEEDED ∨ t = .STORAGE_FULL then 1 else 0, false⟩

/-- A concrete stored envelope, already expired at `now = 10`
(`expiresAt = 5`), exactly as serialized by the default pipeline. -/
def rawExpired : List Nat :=
  jstr "\x7b\"data\":\x7b\x7d,\"timestamp\":1,\"version\":1,\"expiresAt\":5\x7d"

/-- The caller-supplied initial state used in the C5 scenarios. -/
def initC5 : Json :=
  Json.obj [(jstr "keep", Json.num 42)]

/-- **C5 counterexample.** In the exact claimed scenario — a stored
envelope whose `expiresAt` (5) is earlier than the current time (10) —
the load path removes the key and keeps the initial state, but the
reported error list is empty: the expiration case is never reported via
`onError`, refuting the claim's "reports the failure via the optional
onError callback". -/
theorem load_expired_cex :
    isValidPersistedDataJ (Json.obj [(jstr "data", Json.obj []), (jstr "timestamp", Json.num 1),
        (jstr "version", Json.num 1), (jstr "expiresAt", Json.num 5)]) = true ∧
      isExpiredJ 10 (Json.obj [(jstr "data", Json.obj []), (jstr "timestamp", Json.num 1),
        (jstr "version", Json.num 1), (jstr "expiresAt", Json.num 5)]) = true ∧
      loadFromStorage 10 (some rawExpired) false 1 none .shallow initC5 =
        ⟨initC5, true, [], false, [], none⟩ :=
  ⟨by decide, by decide, rfl⟩

/-- **C5 (amended).** For every stored envelope whose `expiresAt` is
earlier than the current time, the load-on-mount path removes the
stored key, leaves the live state equal to the caller-supplied initial
state, never throws out of the initialization path (the model is a
total function), and reports nothing via `onError` — the expiration
case is silent, unlike corrupted data and migration failures. -/
theorem load_expired_spec (now : Int) (raw : List Nat) (shouldCompress : Bool) (version : Int)
    (migrateFn : Option (Json → Int → Except Unit Json)) (strategy : MergeStrategy)
    (initialState : Json) (p : Json)
    (hraw : raw.isEmpty = false)
    (hp : pipelineDeserialize shouldCompress false raw = some p)
    (ht : truthyJson p = true)
    (hv : isValidPersistedDataJ p = true)
    (he : isExpiredJ now p = true) :
    loadFromStorage now (some raw) shouldCompress version migrateFn strategy initialState =
      ⟨initialState, true, [], false, [], none⟩ := by
  simp [loadFromStorage, hraw, hp, ht, hv, he]

/-- Witness for the amended C5 theorem at the concrete expired
envelope. -/
theorem load_expired_spec_witness :
    (rawExpired.isEmpty = false ∧
        truthyJson (Json.obj [(jstr "data", Json.obj []), (jstr "timestamp", Json.num 1),
          (jstr "version", Json.num 1), (jstr "expiresAt", Json.num 5)]) = true) ∧
      loadFromStorage 10 (some rawExpired) false 1 none .deep initC5 =
        ⟨initC5, true, [], false, [], none⟩ :=
  ⟨⟨by decide, by decide⟩,
    load_expired_spec 10 rawExpired false 1 none .deep initC5 _ (by decide) rfl (by decide)
      (by decide) (by decide)⟩

/-- **C9.** `migrateData` returns the data unchanged when the stored
version is current or newer, and when migration is needed but no
migrate function is supplied; a throwing migrate function yields the
JavaScript `null`, upon which the load path reports `MIGRATION_FAILED`
and keeps the caller's initial state, adopting nothing. -/
theorem migrateData_spec :
    (∀ (d : Json) (sv cv : Int) (mf : Option (Json → Int → Except Unit Json)),
        cv ≤ sv → migrateDataJ d sv cv mf = d) ∧
      (∀ (d : Json) (sv cv : Int), migrateDataJ d sv cv none = d) ∧
      (∀ (d : Json) (sv cv : Int) (f : Json → Int → Except Unit Json),
        sv < cv → f d sv = .error () → migrateDataJ d sv cv (some f) = Json.null) ∧
      (∀ (now : Int) (raw : List Nat) (shouldCompress : Bool) (ver : Int)
          (f : Json → Int → Except Unit Json) (strategy : MergeStrategy)
          (initialState : Json) (p : Json),
        raw.isEmpty = false →
        pipelineDeserialize shouldCompress false raw = some p →
        truthyJson p = true →
        isValidPersistedDataJ p = true →
        isExpiredJ now p = false →
        envVersion p < ver →
        f (envData p) (envVersion p) = .error () →
        loadFromStorage now (some raw) shouldCompress ver (some f) strategy initialState =
          ⟨initialState, false, [.MIGRATION_FAILED], false, [], none⟩) := by
  refine ⟨?_, ?_, ?_, ?_⟩
  · intro d sv cv mf h
    simp [migrateDataJ, needsMigration]
    omega
  · intro d sv cv
    cases h : needsMigration sv cv <;> simp [migrateDataJ, h]
  · intro d sv cv f hlt hthrow
    simp [migrateDataJ, needsMigration, hlt, hthrow]
  · intro now raw shouldCompress ver f strategy initialState p hraw hp ht hv he hver hthrow
    have hm : migrateDataJ (envData p) (envVersion p) ver (some f) = Json.null := by
      simp [migrateDataJ, needsMigration, hthrow]
      omega
    simp [loadFromStorage, hraw, hp, ht, hv, he, hm, isNullJ]

/-- A stored envelope at schema version 1 (not expired), used for the
C9 migration-failure witness. -/
def rawV1 : List Nat :=
  jstr "\x7b\"data\":\x7b\"a\":1\x7d,\"timestamp\":3,\"version\":1\x7d"

/-- Witness for C9: a throwing migrate function on a version-1
envelope loaded at schema version 2 reports `MIGRATION_FAILED` and
keeps the initial state. -/
theorem migrateData_spec_witness :
    ((1 : Int) < 2 ∧ rawV1.isEmpty = false) ∧
      migrateDataJ (Json.num 9) 1 2 (some (fun _ _ => Except.error ())) = Json.null ∧
      loadFromStorage 10 (some rawV1) false 2 (some (fun _ _ => Except.error ())) .shallow
          initC5 =
        ⟨initC5, false, [.MIGRATION_FAILED], false, [], none⟩ :=
  ⟨⟨by omega, by decide⟩,
    migrateData_spec.2.2.1 (Json.num 9) 1 2 (fun _ _ => Except.error ()) (by omega) rfl,
    migrateData_spec.2.2.2 10 rawV1 false 2 (fun _ _ => Except.error ()) .shallow initC5 _
      (by decide) rfl (by decide) (by decide) (by decide) (by decide) rfl⟩

/-- **C10.** A throwing `validate` hook makes `validateData` return
`false`, and the save path then behaves exactly as for a `false`
verdict: no write, no `onError`, no `onStorageFull`, and the exception
never propagates (the save model is total). -/
theorem validate_throw_skips_save (enabled isPaused : Bool)
    (beforePersist : Option (Json → Json)) (exclude : List (List Nat))
    (f : Json → Except Unit Bool) (version : Int) (expiration : Option Int)
    (shouldCompress : Bool) (now : Int) (fullKey : List Nat) (setThrows : Option JsError)
    (dataToSave : Json)
    (hthrow : f (processedData beforePersist exclude dataToSave) = .error ()) :
    validateDataJ (processedData beforePersist exclude dataToSave) (some f) = false ∧
      saveToStorage enabled isPaused beforePersist exclude (some f) version expiration
          shouldCompress now fullKey setThrows dataToSave =
        saveToStorage enabled isPaused beforePersist exclude
          (some (fun _ => Except.ok false)) version expiration shouldCompress now fullKey
          setThrows dataToSave ∧
      saveToStorage enabled isPaused beforePersist exclude (some f) version expiration
          shouldCompress now fullKey setThrows dataToSave = ⟨[], [], 0, false⟩ := by
  have hval : validateDataJ (processedData beforePersist exclude dataToSave) (some f) = false := by
    simp [validateDataJ, hthrow]
  have hvalF : validateDataJ (processedData beforePersist exclude dataToSave)
      (some (fun _ => Except.ok false)) = false := by
    simp [validateDataJ]
  by_cases hE : enabled = false ∨ isPaused = true
  · exact ⟨hval, by simp [saveToStorage, hE], by simp [saveToStorage, hE]⟩
  · exact ⟨hval, by simp [saveToStorage, hE, hval, hvalF], by simp [saveToStorage, hE, hval]⟩

/-- Witness for C10 with a concrete throwing validator on an enabled,
unpaused save. -/
theorem validate_throw_skips_save_witness :
    ((fun _ => Except.error () : Json → Except Unit Bool)
        (processedData none [] (Json.obj [(jstr "a", Json.num 1)])) = Except.error ()) ∧
      saveToStorage true false none [] (some (fun _ => Except.error ())) 1 none false 0
          (jstr "rfp:f") none (Json.obj [(jstr "a", Json.num 1)]) =
        ⟨[], [], 0, false⟩ :=
  ⟨rfl,
    (validate_throw_skips_save true false none [] (fun _ => Except.error ()) 1 none false 0
      (jstr "rfp:f") none (Json.obj [(jstr "a", Json.num 1)]) rfl).2.2⟩

/-! ## History manager (`historyManager.ts`) -/

/-- The `HistoryState` of the source: snapshot list, current index,
bound. -/
structure HistoryState (α : Type) where
  states : List α
  index : Nat
  maxLength : Nat
deriving DecidableEq

/-- The constructor: a single-entry stack at the initial state. -/
def historyInit (initialState : α) (maxLength : Nat) : HistoryState α :=
  ⟨[initialState], 0, maxLength⟩

/-- Model of `HistoryManager.push`: drop the redo branch, append, trim
one entry from the front when over `maxLength`, point at the end. -/
def hPush (s : HistoryState α) (x : α) : HistoryState α :=
  let ns := s.states.take (s.index + 1) ++ [x]
  let ns := if s.maxLength < ns.length then ns.tail else ns
  { s with states := ns, index := ns.length - 1 }

/-- Model of `undo`: step back unless at the oldest entry. -/
def hUndo (s : HistoryState α) : HistoryState α :=
  if 0 < s.index then { s with index := s.index - 1 } else s

/-- Model of `redo`: step forward unless at the newest entry. -/
def hRedo (s : HistoryState α) : HistoryState α :=
  if s.index + 1 < s.states.length then { s with index := s.index + 1 } else s

/-- Model of `goTo`: clamp the target into `[0, length - 1]`. -/
def hGoTo (s : HistoryState α) (target : Int) : HistoryState α :=
  { s with index := (max 0 (min target ((s.states.length : Int) - 1))).toNat }

/-- Model of `reset`: collapse to a single-entry stack. -/
def hReset (s : HistoryState α) (x : α) : HistoryState α :=
  { s with states := [x], index := 0 }

/-- One public operation of the history manager. -/
inductive HistoryOp (α : Type) where
  | push (x : α)
  | undo
  | redo
  | goTo (i : Int)
  | reset (x : α)
deriving DecidableEq

/-- Apply one operation. -/
def hApply (s : HistoryState α) : HistoryOp α → HistoryState α
  | .push x => hPush s x
  | .undo => hUndo s
  | .redo => hRedo s
  | .goTo i => hGoTo s i
  | .reset x => hReset s x

/-- Run a sequence of operations from a fresh manager. -/
def hRun (initialState : α) (maxLength : Nat) (ops : List (HistoryOp α)) : HistoryState α :=
  ops.foldl hApply (historyInit initialState maxLength)

/-- The structural invariant of the history stack. -/
def hInv (s : HistoryState α) : Prop :=
  1 ≤ s.states.length ∧ s.states.length ≤ s.maxLength ∧ s.index < s.states.length

theorem hApply_inv (s : HistoryState α) (op : HistoryOp α) (hm : 1 ≤ s.maxLength)
    (h : hInv s) : hInv (hApply s op) ∧ (hApply s op).maxLength = s.maxLength := by
  obtain ⟨h1, h2, h3⟩ := h
  cases op with
  | push x =>
    have hlen1 : (s.states.take (s.index + 1) ++ [x]).length = s.index + 2 := by
      simp [List.length_take]
      omega
    refine ⟨?_, by simp [hApply, hPush]⟩
    simp only [hApply, hPush, hInv]
    split
    · rename_i hover
      rw [hlen1] at hover
      simp [List.length_tail, hlen1]
      omega
    · rename_i hover
      rw [hlen1] at hover
      simp [hlen1]
      omega
  | undo =>
    simp only [hApply]
    unfold hUndo hInv
    split <;> simp_all <;> omega
  | redo =>
    simp only [hApply]
    unfold hRedo hInv
    split <;> simp_all <;> omega
  | goTo i =>
    simp only [hApply]
    unfold hGoTo hInv
    simp_all
    omega
  | reset x =>
    simp only [hApply]
    unfold hReset hInv
    simp_all

/-- **C6 counterexample.** With `maxLength = 3`, push up to a full
stack `[0, 1, 2]`, `goTo 0`, then push again: the stack was at
`maxLength` before the final push, yet the result is `[0, 3]` — length
2, not pinned at 3, and the discarded entries (1 and 2) are the newest
ones while the oldest (0) survives. -/
theorem history_push_cex :
    (hRun 0 3 [HistoryOp.push 1, HistoryOp.push 2, HistoryOp.goTo 0]).states.length =
        (hRun 0 3 [HistoryOp.push 1, HistoryOp.push 2, HistoryOp.goTo 0]).maxLength ∧
      (hRun 0 3 [HistoryOp.push 1, HistoryOp.push 2, HistoryOp.goTo 0,
        HistoryOp.push 3]).states = [0, 3] ∧
      ¬((hRun 0 3 [HistoryOp.push 1, HistoryOp.push 2, HistoryOp.goTo 0,
        HistoryOp.push 3]).states.length = 3) := by
  decide

/-- **C6 (amended).** For every `maxLength ≥ 1` and any operation
sequence, the stack keeps `1 ≤ length ≤ maxLength` and
`index < length`; and a push on a full stack whose index sits at the
newest entry (no redo branch pending) keeps the length pinned at
`maxLength` and discards exactly the oldest entry, appending the new
state at the end. -/
theorem history_invariant (x0 : α) (maxLength : Nat) (ops : List (HistoryOp α))
    (hm : 1 ≤ maxLength) :
    (hInv (hRun x0 maxLength ops) ∧ (hRun x0 maxLength ops).maxLength = maxLength) ∧
      ∀ s : HistoryState α, ∀ x, hInv s → s.states.length = s.maxLength →
        s.index = s.states.length - 1 →
        (hPush s x).states = s.states.tail ++ [x] ∧
          (hPush s x).states.length = s.maxLength := by
  constructor
  · induction ops using List.list_reverse_induction with
    | base =>
      exact ⟨⟨by simp [hRun, historyInit], by simp [hRun, historyInit, hm], by
        simp [hRun, historyInit]⟩, by simp [hRun, historyInit]⟩
    | ind ops op ih =>
      have hstep : hRun x0 maxLength (ops ++ [op]) = hApply (hRun x0 maxLength ops) op := by
        simp [hRun, List.foldl_append]
      rw [hstep]
      have hstepinv := hApply_inv (hRun x0 maxLength ops) op (by rw [ih.2]; exact hm) ih.1
      exact ⟨hstepinv.1, by rw [hstepinv.2, ih.2]⟩
  · intro s x hinv hfull hidx
    obtain ⟨h1, h2, h3⟩ := hinv
    have htake : s.states.take (s.index + 1) = s.states := by
      apply List.take_of_length_le
      omega
    have hover : s.maxLength < (s.states.take (s.index + 1) ++ [x]).length := by
      rw [htake]
      simp
      omega
    constructor
    · simp only [hPush, htake]
      split
      · cases hs : s.states with
        | nil => rw [hs] at h1; simp at h1
        | cons a t => simp
      · rename_i hc
        exact absurd (by simp; omega) hc
    · simp only [hPush, htake]
      split
      · simp [List.length_tail]
        omega
      · rename_i hc
        simp at hc
        omega

theorem history_invariant_witness :
    1 ≤ 3 ∧
      ((hInv (hRun (0 : Nat) 3 [HistoryOp.push 1, HistoryOp.push 2]) ∧
          (hRun (0 : Nat) 3 [HistoryOp.push 1, HistoryOp.push 2]).maxLength = 3) ∧
        ∀ s : HistoryState Nat, ∀ x, hInv s → s.states.length = s.maxLength →
          s.index = s.states.length - 1 →
          (hPush s x).states = s.states.tail ++ [x] ∧
            (hPush s x).states.length = s.maxLength) :=
  ⟨by decide, history_invariant 0 3 [HistoryOp.push 1, HistoryOp.push 2] (by decide)⟩

/-! ## Debounce (`debounce.ts`, `createDebouncedFn`)

Timed model of the event loop. A world is a list of external calls
`(t, args)` with the times in milliseconds. The closure state is the
pending `setTimeout` deadline (`timeoutId` plus its scheduled time) and
`lastArgs`. Before an external call at time `t` runs, any timer whose
deadline lies strictly before `t` has fired; after the last call the
remaining timer fires (quiescence). The output is the list of
downstream `callback` invocations as `(time, args)` pairs. -/

/-- Closure state of `createDebouncedFn`: scheduled deadline of the
pending `setTimeout` (none when `timeoutId === null`) and `lastArgs`. -/
structure DebState (A : Type) where
  fireAt : Option Nat
  lastArgs : Option A

/-- Fire the pending timer if its deadline is strictly before `t`
(lines 77-84: clear `timeoutId`, invoke with `lastArgs`, null it). -/
def debAdvance (st : DebState A) (t : Nat) : DebState A × List (Nat × A) :=
  match st.fireAt with
  | some ft =>
    if ft < t then
      (⟨none, none⟩, match st.lastArgs with | some a => [(ft, a)] | none => [])
    else (st, [])
  | none => (st, [])

/-- `debounced(...args)` at time `t`: store `lastArgs`, clear any
pending timer, schedule a fresh one `wait` from now (lines 70-85). -/
def debCall (w : Nat) (t : Nat) (a : A) : DebState A :=
  ⟨some (t + w), some a⟩

/-- Process the calls in time order, firing due timers in between, and
flush the surviving timer once the burst has gone quiet. -/
def debSteps (w : Nat) : DebState A → List (Nat × A) → List (Nat × A)
  | st, [] =>
    match st.fireAt with
    | some ft => match st.lastArgs with
      | some a => [(ft, a)]
      | none => []
    | none => []
  | st, (t, a) :: rest =>
    let p := debAdvance st t
    p.2 ++ debSteps w (debCall w t a) rest

/-- Run a fresh debounced function over a timed call sequence. -/
def debRun (w : Nat) (calls : List (Nat × A)) : List (Nat × A) :=
  debSteps w ⟨none, none⟩ calls

/-- Times are non-decreasing and each call comes within `w` of the
previous one. -/
def burstOk (w : Nat) : List (Nat × A) → Bool
  | c :: d :: rest =>
    (decide (c.1 ≤ d.1) && decide (d.1 ≤ c.1 + w)) && burstOk w (d :: rest)
  | _ => true

theorem debSteps_burst (w : Nat) (rest : List (Nat × A)) : ∀ (t : Nat) (a : A),
    burstOk w ((t, a) :: rest) = true →
    debSteps w ⟨some (t + w), some a⟩ rest =
      [((((t, a) :: rest).getLast (List.cons_ne_nil _ _)).1 + w,
        (((t, a) :: rest).getLast (List.cons_ne_nil _ _)).2)] := by
  induction rest with
  | nil => intro t a _; rfl
  | cons c rest ih =>
    intro t a hb
    obtain ⟨t2, a2⟩ := c
    unfold burstOk at hb
    rw [Bool.and_eq_true, Bool.and_eq_true, decide_eq_true_eq, decide_eq_true_eq] at hb
    obtain ⟨⟨h1, h2⟩, hb2⟩ := hb
    rw [debSteps]
    have hadv : debAdvance (⟨some (t + w), some a⟩ : DebState A) t2 =
        (⟨some (t + w), some a⟩, []) := by
      unfold debAdvance
      simp
      omega
    rw [hadv]
    simp only [List.nil_append]
    rw [debCall, ih t2 a2 hb2]
    simp [List.getLast_cons]

/-- **C7.** A burst of calls each within `wait` of the previous one,
followed by quiescence, yields exactly one downstream invocation,
carrying the arguments of the last call (and firing `wait` after it). -/
theorem debounce_burst (w : Nat) (t0 : Nat) (a0 : A) (rest : List (Nat × A))
    (hb : burstOk w ((t0, a0) :: rest) = true) :
    debRun w ((t0, a0) :: rest) =
      [((((t0, a0) :: rest).getLast (List.cons_ne_nil _ _)).1 + w,
        (((t0, a0) :: rest).getLast (List.cons_ne_nil _ _)).2)] := by
  rw [debRun, debSteps]
  have hadv : debAdvance (⟨none, none⟩ : DebState A) t0 = (⟨none, none⟩, []) := rfl
  rw [hadv]
  simp only [List.nil_append]
  rw [debCall, debSteps_burst w rest t0 a0 hb]

theorem debounce_burst_witness :
    burstOk 100 [((0 : Nat), (1 : Nat)), (50, 2), (100, 3)] = true ∧
      debRun 100 [((0 : Nat), (1 : Nat)), (50, 2), (100, 3)] = [(200, 3)] :=
  ⟨by decide, debounce_burst 100 0 1 [(50, 2), (100, 3)] (by decide)⟩

/-! ## Combined save controller (`createSaveController` with throttle)

With a `throttleInterval`, `save` forwards each call first to the
debounced function and then to an independent throttled function
(lines 211-214); the two closures share the downstream callback but no
state. The throttle keeps `lastCall` (initially 0), a pending trailing
timer, and its own `lastArgs`. `Date.now()` is the absolute time of the
event. -/

/-- Joint closure state: debounce deadline/args, throttle
`lastCall`/trailing deadline/args. -/
structure CombState (A : Type) where
  dFireAt : Option Nat
  dArgs : Option A
  tLastCall : Nat
  tFireAt : Option Nat
  tArgs : Option A

/-- The debounce timer fires (clear the id, invoke with `lastArgs`,
null it); the throttle fields are untouched. -/
def combFireD (st : CombState A) : CombState A × List (Nat × A) :=
  match st.dFireAt with
  | some ft =>
    ({ st with dFireAt := none, dArgs := none },
      match st.dArgs with | some a => [(ft, a)] | none => [])
  | none => (st, [])

/-- The throttle trailing timer fires (lines 151-158: `lastCall`
becomes the fire time, the id is cleared, `lastArgs` is consumed). -/
def combFireT (st : CombState A) : CombState A × List (Nat × A) :=
  match st.tFireAt with
  | some ft =>
    ({ st with tLastCall := ft, tFireAt := none, tArgs := none },
      match st.tArgs with | some a => [(ft, a)] | none => [])
  | none => (st, [])

/-- Is an optional deadline strictly before `t`? -/
def dueBefore : Option Nat → Nat → Bool
  | some ft, t => decide (ft < t)
  | none, _ => false

/-- Fire every timer due strictly before `t`, earliest first (firing
never schedules a new timer, so one round settles the world). -/
def combAdvance (st : CombState A) (t : Nat) : CombState A × List (Nat × A) :=
  if dueBefore st.dFireAt t then
    if dueBefore st.tFireAt t then
      if st.dFireAt.getD 0 ≤ st.tFireAt.getD 0 then
        let p := combFireD st
        let q := combFireT p.1
        (q.1, p.2 ++ q.2)
      else
        let p := combFireT st
        let q := combFireD p.1
        (q.1, p.2 ++ q.2)
    else combFireD st
  else if dueBefore st.tFireAt t then combFireT st
  else (st, [])

/-- `save(...args)` at time `t`: the debounced half overwrites its args
and reschedules its timer; the throttled half (lines 134-160) computes
`remaining = interval - (now - lastCall)`, stores `lastArgs`, fires on
the leading edge when `remaining <= 0`, else schedules a trailing timer
at `now + remaining` if none is pending. -/
def combSave (I w : Nat) (st : CombState A) (t : Nat) (a : A) :
    CombState A × List (Nat × A) :=
  let st1 := { st with dFireAt := some (t + w), dArgs := some a }
  let remaining : Int := (I : Int) - ((t : Int) - (st1.tLastCall : Int))
  let st2 := { st1 with tArgs := some a }
  if remaining ≤ 0 then
    ({ st2 with tFireAt := none, tLastCall := t }, [(t, a)])
  else
    match st2.tFireAt with
    | none => ({ st2 with tFireAt := some (t + remaining.toNat) }, [])
    | some _ => (st2, [])

/-- Process timed `save` calls in order, firing due timers in between,
then flush the surviving timers at quiescence, earliest first. -/
def combSteps (I w : Nat) : CombState A → List (Nat × A) → List (Nat × A)
  | st, [] =>
    match st.dFireAt, st.tFireAt with
    | some df, some tf =>
      if df ≤ tf then (combFireD st).2 ++ (combFireT (combFireD st).1).2
      else (combFireT st).2 ++ (combFireD (combFireT st).1).2
    | some _, none => (combFireD st).2
    | none, some _ => (combFireT st).2
    | none, none => []
  | st, (t, a) :: rest =>
    let p := combAdvance st t
    let q := combSave I w p.1 t a
    p.2 ++ q.2 ++ combSteps I w q.1 rest

/-- Run a fresh combined controller over a timed call sequence. -/
def combRun (I w : Nat) (calls : List (Nat × A)) : List (Nat × A) :=
  combSteps I w ⟨none, none, 0, none, none⟩ calls

/-- **C2 counterexample.** `debounceWait = 100`, `throttleInterval =
1000`, two calls 1 ms apart at t = 10000: the throttle's leading edge
fires at 10000, the debounce trailing edge at 10101, and the
throttle's own trailing timer — whose `lastArgs` the debounce fire
never clears — fires again at 11000: three downstream invocations,
not at most two. -/
theorem comb_burst_cex :
    combRun 1000 100 [((10000 : Nat), (1 : Nat)), (10001, 2)] =
        [(10000, 1), (10101, 2), (11000, 2)] ∧
      ¬((combRun 1000 100 [((10000 : Nat), (1 : Nat)), (10001, 2)]).length ≤ 2) := by
  decide

theorem combSteps_tail (I w t0 : Nat) (rest : List (Nat × A)) :
    ∀ (pt : Nat) (pa da ta : A) (tf : Option Nat),
    t0 ≤ pt →
    burstOk w ((pt, pa) :: rest) = true →
    (rest.all fun c => decide (c.1 < t0 + I)) = true →
    (tf = none ∨ tf = some (t0 + I)) →
    (combSteps I w ⟨some (pt + w), some da, t0, tf, some ta⟩ rest).length =
      if tf.isNone && rest.isEmpty then 1 else 2 := by
  induction rest with
  | nil =>
    intro pt pa da ta tf hpt hb hwin htf
    rcases htf with h | h <;> subst h
    · simp [combSteps, combFireD, combFireT]
    · simp only [combSteps, combFireD, combFireT]
      split <;> simp
  | cons c rest ih =>
    intro pt pa da ta tf hpt hb hwin htf
    obtain ⟨t1, a1⟩ := c
    unfold burstOk at hb
    rw [Bool.and_eq_true, Bool.and_eq_true, decide_eq_true_eq, decide_eq_true_eq] at hb
    obtain ⟨⟨hle, hinw⟩, hb2⟩ := hb
    rw [List.all_cons, Bool.and_eq_true, decide_eq_true_eq] at hwin
    obtain ⟨hwin1, hwin2⟩ := hwin
    rw [combSteps]
    have hddue : dueBefore (some (pt + w)) t1 = false := by
      unfold dueBefore
      simp
      omega
    have htdue : dueBefore tf t1 = false := by
      rcases htf with h | h <;> subst h <;> unfold dueBefore <;> simp
      omega
    have hadv : combAdvance (⟨some (pt + w), some da, t0, tf, some ta⟩ : CombState A) t1 =
        (⟨some (pt + w), some da, t0, tf, some ta⟩, []) := by
      unfold combAdvance
      rw [hddue, htdue]
      simp
    rw [hadv]
    have hsave : combSave I w (⟨some (pt + w), some da, t0, tf, some ta⟩ : CombState A) t1 a1 =
        (⟨some (t1 + w), some a1, t0, some (t0 + I), some a1⟩, []) := by
      unfold combSave
      dsimp only
      rw [if_neg (by omega)]
      rcases htf with h | h <;> subst h
      · dsimp only
        have h1 : ((I : Int) - ((t1 : Int) - (t0 : Int))).toNat = t0 + I - t1 := by omega
        rw [h1]
        have h2 : t1 + (t0 + I - t1) = t0 + I := by omega
        rw [h2]
      · dsimp only
    rw [hsave]
    simp only [List.nil_append, List.append_nil]
    rw [ih t1 a1 a1 a1 (some (t0 + I)) (le_trans hpt hle) hb2 hwin2 (Or.inr rfl)]
    simp

/-- **C2 (amended).** With both timers, a burst starting at `t0 ≥
interval` (so the leading edge fires), each call within `wait` of the
previous and all later calls inside the throttle window `t0 +
interval`, produces exactly two downstream invocations for a
single-call burst (throttle leading edge + debounce trailing edge) and
exactly three for any longer burst: the throttle's trailing timer also
fires, because the debounce and throttle closures share no state and
the debounce fire does not clear the throttle's pending args. -/
theorem comb_burst_count (I w t0 : Nat) (a0 : A) (rest : List (Nat × A))
    (ht0 : I ≤ t0)
    (hb : burstOk w ((t0, a0) :: rest) = true)
    (hwin : (rest.all fun c => decide (c.1 < t0 + I)) = true) :
    (combRun I w ((t0, a0) :: rest)).length = if rest.isEmpty then 2 else 3 := by
  rw [combRun, combSteps]
  have hadv : combAdvance (⟨none, none, 0, none, none⟩ : CombState A) t0 =
      (⟨none, none, 0, none, none⟩, []) := rfl
  rw [hadv]
  have hsave : combSave I w (⟨none, none, 0, none, none⟩ : CombState A) t0 a0 =
      (⟨some (t0 + w), some a0, t0, none, some a0⟩, [(t0, a0)]) := by
    unfold combSave
    dsimp only
    rw [if_pos (by omega)]
  rw [hsave]
  simp only [List.nil_append, List.length_append, List.length_cons, List.length_nil]
  rw [combSteps_tail I w t0 rest t0 a0 a0 a0 none le_rfl hb hwin (Or.inl rfl)]
  cases rest <;> simp

theorem comb_burst_count_witness :
    1000 ≤ 10000 ∧
      burstOk 100 [((10000 : Nat), (1 : Nat)), (10001, 2)] = true ∧
      ([((10001 : Nat), (2 : Nat))].all fun c => decide (c.1 < 10000 + 1000)) = true ∧
      (combRun 1000 100 [((10000 : Nat), (1 : Nat)), (10001, 2)]).length =
        if ([((10001 : Nat), (2 : Nat))] : List (Nat × Nat)).isEmpty then 2 else 3 :=
  ⟨by decide, by decide, by decide,
    comb_burst_count 1000 100 10000 1 [(10001, 2)] (by decide) (by decide) (by decide)⟩

/-! ## Cross-tab sync (`syncManager.ts`)

A `SyncManager` snapshot is its key, its own tab id, the destroyed
flag, whether a callback was registered through the `onSync` method
(`this.callback`), whether `options.onSync` was supplied, the conflict
strategy and whether a `conflictResolver` was given. Handlers are
modelled as functions from an inbound event to the list of callback
invocations they perform; `undefined` payloads are `none`. -/

/-- The sync conflict strategy of `SyncOptions`. -/
inductive SyncStrategy where
  | latestWins
  | merge
  | askUser
deriving DecidableEq

/-- Which stored callback is being invoked. -/
inductive CbTarget where
  | method
  | optHook
deriving DecidableEq

/-- The `source` argument of a sync callback. -/
inductive SyncSource where
  | storage
  | broadcast
deriving DecidableEq

/-- One callback invocation: which callback, with which payload
(`none` = `undefined`), from which source. -/
structure SyncInvocation where
  target : CbTarget
  payload : Option Json
  source : SyncSource

/-- Snapshot of a `SyncManager` instance's fields. -/
structure SyncMgr where
  key : List Nat
  tabId : List Nat
  isDestroyed : Bool
  hasCallback : Bool
  hasOnSyncOpt : Bool
  strategy : SyncStrategy
  hasResolver : Bool

/-- The type tag of a `SyncMessage`. -/
inductive SyncMsgType where
  | update
  | clear
  | request
deriving DecidableEq

/-- A broadcast-channel message. -/
structure SyncMessage where
  mtype : SyncMsgType
  mkey : List Nat
  mdata : Option Json
  tabId : List Nat

/-- `handleIncomingData` (lines 147-169): each of the three strategy
branches invokes `this.callback?.` and then `this.options.onSync?.`
with the same data and source. -/
def handleIncomingData (m : SyncMgr) (data : Json) (src : SyncSource) :
    List SyncInvocation :=
  let calls :=
    (if m.hasCallback then [⟨CbTarget.method, some data, src⟩] else []) ++
      (if m.hasOnSyncOpt then [⟨CbTarget.optHook, some data, src⟩] else [])
  if m.strategy = SyncStrategy.latestWins then calls
  else if m.hasResolver then calls
  else calls

/-- JavaScript `parsed.data` on an arbitrary parsed value: a property
read that yields `undefined` unless the value is an object with the
key. -/
def propData (j : Json) : Option Json :=
  match j with
  | Json.obj kvs => jlookup kvs (jstr "data")
  | _ => none

/-- `handleStorageEvent` (lines 120-141): bail when destroyed or the
key differs; on `newValue === null` call `options.onSync?.(undefined,
'storage')` and return; otherwise parse, and only a truthy `parsed`
with a truthy `parsed.data` reaches `handleIncomingData`. -/
def handleStorageEvent (m : SyncMgr) (evKey : List Nat)
    (newValue : Option (List Nat)) : List SyncInvocation :=
  if m.isDestroyed then []
  else if evKey ≠ m.key then []
  else
    match newValue with
    | none => if m.hasOnSyncOpt then [⟨CbTarget.optHook, none, SyncSource.storage⟩] else []
    | some s =>
      match jsonParse s with
      | none => []
      | some parsed =>
        if truthyJson parsed then
          match propData parsed with
          | some d => if truthyJson d then handleIncomingData m d SyncSource.storage else []
          | none => []
        else []

/-- `handleBroadcastMessage` (lines 97-114): bail when destroyed, when
the message carries this tab's own id, or when the key differs; an
`update` with data reaches `handleIncomingData`, a `clear` calls
`options.onSync?.(undefined, 'broadcast')`, a `request` does nothing. -/
def handleBroadcastMessage (m : SyncMgr) (msg : SyncMessage) :
    List SyncInvocation :=
  if m.isDestroyed then []
  else if msg.tabId = m.tabId then []
  else if msg.mkey ≠ m.key then []
  else
    match msg.mtype with
    | SyncMsgType.update =>
      match msg.mdata with
      | some d => handleIncomingData m d SyncSource.broadcast
      | none => []
    | SyncMsgType.clear =>
      if m.hasOnSyncOpt then [⟨CbTarget.optHook, none, SyncSource.broadcast⟩] else []
    | SyncMsgType.request => []

/-- A live manager with both a method-registered callback and an
`options.onSync` hook. -/
def mgrC3 : SyncMgr :=
  ⟨jstr "rfp:form", jstr "tab-1", false, true, true, SyncStrategy.latestWins, false⟩

/-- **C3 counterexample.** A matching storage event with `newValue =
null` on a manager whose `onSync(cb)` method HAS registered a callback
invokes only the `options.onSync` hook: the method-registered callback
is never called, contrary to the claim. -/
theorem sync_null_event_cex :
    mgrC3.hasCallback = true ∧
      handleStorageEvent mgrC3 mgrC3.key none =
        [⟨CbTarget.optHook, none, SyncSource.storage⟩] ∧
      (handleStorageEvent mgrC3 mgrC3.key none).all
        (fun inv => inv.target ≠ CbTarget.method) = true :=
  ⟨rfl, rfl, rfl⟩

/-- **C3 (amended).** A matching storage event with null `newValue`
invokes exactly the `options.onSync` hook with an undefined payload and
source `'storage'` (the method-registered callback is not involved);
and every broadcast message carrying the instance's own tab id is
discarded without invoking any callback. -/
theorem sync_spec (m : SyncMgr) (msg : SyncMessage)
    (hd : m.isDestroyed = false) (hOpt : m.hasOnSyncOpt = true)
    (htab : msg.tabId = m.tabId) :
    handleStorageEvent m m.key none =
        [⟨CbTarget.optHook, none, SyncSource.storage⟩] ∧
      handleBroadcastMessage m msg = [] := by
  constructor
  · unfold handleStorageEvent
    rw [hd, hOpt]
    simp
  · unfold handleBroadcastMessage
    rw [hd, htab]
    simp

theorem sync_spec_witness :
    handleStorageEvent mgrC3 mgrC3.key none =
        [⟨CbTarget.optHook, none, SyncSource.storage⟩] ∧
      handleBroadcastMessage mgrC3
        ⟨SyncMsgType.update, jstr "rfp:form", some (Json.num 1), jstr "tab-1"⟩ = [] :=
  sync_spec mgrC3 ⟨SyncMsgType.update, jstr "rfp:form", some (Json.num 1), jstr "tab-1"⟩
    rfl rfl rfl
